import Mathlib

/-!
Verification development for `minicourse/check.cpp`.

A shallow embedding of the unit-testing driver of the PASL minicourse
(`src/minicourse/check.cpp`): the equality oracle `same_array`, the
differential sort property `sort_correct::holdsFor`, and the three graph
generators (`gen_random_edgelist`, `gen_balanced_tree_edgelist`,
`gen_cube_grid_edgelist`).

Conventions of the embedding.

* `long` values are mathematical integers (`Int`); a `long` that only ever
  counts loop iterations or container sizes is a `Nat` once its sign is
  known.  Signed overflow is undefined behaviour in C++ and is outside the
  model.
* `unsigned long` values are natural numbers reduced modulo `2 ^ 64` at every
  operation that can wrap.
* `std::vector` and the `array` class are lists; `v[i]` is `List.getD v i 0`
  and `v[i] = e` is `List.set`.
* Loops `for (i = 0; i < n; i++)` whose bound is fixed are folds over
  `List.range n`; the `do ... while` and `while` loops of the random
  generator, which need not terminate, carry an iteration budget and return
  `Except Fault`.
* The shift `1UL << pow` of the random generator is undefined in C++ once
  `pow` reaches 64, and the code has no exit there.  The generator is
  embedded twice: `gen_random_edgelist` stops at such a shift (it detects
  the undefined shift), and `gen_random_edgelist_on wide` goes on with the
  value `wide pow` the platform gives it (on x86-64 the count is taken
  modulo 64, `shift_masked`).  The first is the second at
  `shift_undefined`; what is proved of every list the generator returns is
  proved of the second, for every `wide`.
-/

namespace Minicourse

/-! ## Data model -/

/-- Element type of arrays (`value_type`, a `long`). -/
abbrev value_type := Int

/-- Modelled from the spec: `vtxid_type` and `edge` are declared in
`graph.hpp`, which is not part of the sources at hand; the spec describes a
vertex id as an unsigned integer identifying a graph node, dense, starting
at 0, and an edge as an ordered pair (source, target) of vertex ids. -/
abbrev edge := Nat × Nat

/-- An edge list: ordered sequence of edges. -/
abbrev edgelist := List edge

/-- Constructor `mk_edge(source, target)` of `graph.hpp`: the pair whose
`first` is the source and whose `second` is the target. -/
def mk_edge (s t : Nat) : edge := (s, t)

/-- The loop `for (i = 0; i < n; i++) s = body(i, s)`. -/
def for_range {σ : Type} (n : Nat) (body : Nat → σ → σ) (s : σ) : σ :=
  (List.range n).foldl (fun acc i => body i acc) s

/-! ## Equality oracle and sort property -/

/-- The loop of `same_array`: `r` iterations remain, the index is `i`;
returns `false` at the first position where the arrays differ. -/
def same_array_loop (xs ys : List value_type) : Nat → Nat → Bool
  | 0, _ => true
  | r + 1, i =>
    if xs.getD i 0 != ys.getD i 0 then false
    else same_array_loop xs ys r (i + 1)

/-- The function `same_array(xs, ys)`. -/
def same_array (xs ys : List value_type) : Bool :=
  if xs.length != ys.length then false
  else same_array_loop xs ys xs.length 0

/-- Modelled from the spec: `tabulate(f, n)` belongs to the array library,
which is not part of the sources at hand; it builds the array of length `n`
whose element at position `i` is `f(i)`. -/
def tabulate (f : Nat → value_type) (n : Nat) : List value_type :=
  (List.range n).map f

/-- The function `array_of_vector(vec)`. -/
def array_of_vector (vec : List value_type) : List value_type :=
  tabulate (fun i => vec.getD i 0) vec.length

/-- The method `sort_correct<Trusted, Untrusted>::holdsFor(vec)`. -/
def sort_correct_holdsFor (trusted_sort untrusted_sort : List value_type → List value_type)
    (vec : List value_type) : Bool :=
  let xs := array_of_vector vec
  same_array (trusted_sort xs) (untrusted_sort xs)

/-! ## Random generator -/

/-- Ways in which a run of the random generator fails to return. -/
inductive Fault where
  /-- The iteration budget is used up while a loop is still running. -/
  | fuel
  /-- The shift `1UL << pow` is evaluated with `pow ≥ 64` (undefined). -/
  | shift (pow : Nat)
  /-- The call `edges.resize` is given a negative `long`. -/
  | alloc
  deriving DecidableEq

/-- Conversion of a `long` to `unsigned long`. -/
def to_ulong (z : Int) : Nat := (z % 2 ^ 64).toNat

/-- The `dim == 0` loop `do j = (h = hash(h)) % nb_rows; while (j == i)`;
the first argument is the number of iterations allowed. -/
def reroll_uniform (hash : Nat → Nat) (nb_rows i : Nat) : Nat → Nat → Except Fault Nat
  | 0, _ => .error .fuel
  | f + 1, h =>
    let h1 := hash h % 2 ^ 64
    let j := h1 % nb_rows
    if j = i then reroll_uniform hash nb_rows i f h1 else .ok j

/-- The loop `while (((h = hash(h)) % 1000003) < 500001) pow += dim;` it
returns the final `(h, pow)`; the first argument is the number of
iterations allowed. -/
def widen (hash : Nat → Nat) (dim : Nat) : Nat → Nat → Nat → Except Fault (Nat × Nat)
  | 0, _, _ => .error .fuel
  | f + 1, h, pow =>
    let h1 := hash h % 2 ^ 64
    if h1 % 1000003 < 500001 then widen hash dim f h1 ((pow + dim) % 2 ^ 64)
    else .ok (h1, pow)

/-- The `dim != 0` loop
`do { while (...) pow += dim; j = (i + (h = hash(h)) % (1UL << pow)) % nb_rows; } while (j == i)`.
The argument `fuel` bounds the inner loop, the next argument bounds this
loop; `h` and `pow` persist from one iteration to the next. -/
def reroll_windowed (hash : Nat → Nat) (dim nb_rows i fuel : Nat) :
    Nat → Nat → Nat → Except Fault Nat
  | 0, _, _ => .error .fuel
  | f + 1, h, pow =>
    match widen hash dim fuel h pow with
    | .error e => .error e
    | .ok (h1, pow1) =>
      let h2 := hash h1 % 2 ^ 64
      if 64 ≤ pow1 then .error (.shift pow1)
      else
        let j := ((i + h2 % 2 ^ pow1) % 2 ^ 64) % nb_rows
        if j = i then reroll_windowed hash dim nb_rows i fuel f h2 pow1 else .ok j

/-- The target `j` chosen for edge index `k` (body of the `for` loop up to
the two assignments). -/
def pick_target (hash : Nat → Nat) (dim degree nb_rows fuel k : Nat) : Except Fault Nat :=
  let i := k / degree
  if dim = 0 then reroll_uniform hash nb_rows i fuel k
  else reroll_windowed hash dim nb_rows i fuel fuel k ((dim + 2) % 2 ^ 64)

/-- The loop `for (k = ...; k < nb_nonzeros; k++)` with `r` iterations
remaining: each one picks a target and writes `edges[k]`. -/
def fill_edges (hash : Nat → Nat) (dim degree nb_rows fuel : Nat) :
    Nat → Nat → edgelist → Except Fault edgelist
  | 0, _, edges => .ok edges
  | r + 1, k, edges =>
    match pick_target hash dim degree nb_rows fuel k with
    | .error e => .error e
    | .ok j => fill_edges hash dim degree nb_rows fuel r (k + 1) (edges.set k (k / degree, j))

/-- The function `gen_random_edgelist(dim, degree, nb_rows)` on
`unsigned long` arguments; `hash` is `hash_unsigned` (declared in
`hash.hpp`), `fuel` the iteration budget of every loop that may not
terminate. -/
def gen_random_edgelist (hash : Nat → Nat) (dim degree nb_rows fuel : Nat) :
    Except Fault edgelist :=
  let dim := dim % 2 ^ 64
  let degree := degree % 2 ^ 64
  let nb_rows := nb_rows % 2 ^ 64
  let nb_nonzeros := (degree * nb_rows) % 2 ^ 64
  if 2 ^ 63 ≤ nb_nonzeros then .error .alloc
  else
    fill_edges hash dim degree nb_rows fuel nb_nonzeros 0
      (List.replicate nb_nonzeros (0, 0))

/-- The function `gen_random_edgelist(target_nb_edges)`. -/
def gen_random_edgelist_target (hash : Nat → Nat) (target_nb_edges : Int) (fuel : Nat) :
    Except Fault edgelist :=
  let dim : Int := 10
  let degree : Int := 8
  let nb_rows : Int := min degree target_nb_edges
  gen_random_edgelist hash (to_ulong dim) (to_ulong degree) (to_ulong nb_rows) fuel

/-! ## Random generator, on a platform that goes on after a wide shift -/

/-- Value of `((unsigned long) 1) << pow`: it is `2 ^ pow` for `pow < 64`;
for `pow ≥ 64` the shift is undefined in C++ and `wide pow` is what the
platform does, `none` when the run stops there and `some w` when the shift
yields `w` and the run goes on. -/
def shift_one (wide : Nat → Option Nat) (pow : Nat) : Option Nat :=
  if pow < 64 then some (2 ^ pow) else wide pow

/-- The platform that takes the shift count modulo 64 (x86-64, AArch64):
`1UL << pow` is `2 ^ (pow % 64)`. -/
def shift_masked (pow : Nat) : Option Nat := some (2 ^ (pow % 64))

/-- The platform on which a shift by 64 or more stops the run. -/
def shift_undefined (_pow : Nat) : Option Nat := none

/-- The `dim != 0` loop
`do { while (...) pow += dim; j = (i + (h = hash(h)) % (1UL << pow)) % nb_rows; } while (j == i)`
with the shift given by `shift_one wide`; as the code, it has no exit of its
own when `pow` reaches 64.  A shift that yields 0 makes `%` a division by
zero, which stops the run. -/
def reroll_windowed_on (wide : Nat → Option Nat) (hash : Nat → Nat)
    (dim nb_rows i fuel : Nat) : Nat → Nat → Nat → Except Fault Nat
  | 0, _, _ => .error .fuel
  | f + 1, h, pow =>
    match widen hash dim fuel h pow with
    | .error e => .error e
    | .ok (h1, pow1) =>
      let h2 := hash h1 % 2 ^ 64
      match shift_one wide pow1 with
      | none => .error (.shift pow1)
      | some w =>
        if w % 2 ^ 64 = 0 then .error (.shift pow1)
        else
          let j := ((i + h2 % (w % 2 ^ 64)) % 2 ^ 64) % nb_rows
          if j = i then reroll_windowed_on wide hash dim nb_rows i fuel f h2 pow1 else .ok j

/-- The target `j` chosen for edge index `k`, with the shift given by
`shift_one wide`. -/
def pick_target_on (wide : Nat → Option Nat) (hash : Nat → Nat)
    (dim degree nb_rows fuel k : Nat) : Except Fault Nat :=
  let i := k / degree
  if dim = 0 then reroll_uniform hash nb_rows i fuel k
  else reroll_windowed_on wide hash dim nb_rows i fuel fuel k ((dim + 2) % 2 ^ 64)

/-- The loop `for (k = ...; k < nb_nonzeros; k++)` with `r` iterations
remaining, with the shift given by `shift_one wide`. -/
def fill_edges_on (wide : Nat → Option Nat) (hash : Nat → Nat)
    (dim degree nb_rows fuel : Nat) : Nat → Nat → edgelist → Except Fault edgelist
  | 0, _, edges => .ok edges
  | r + 1, k, edges =>
    match pick_target_on wide hash dim degree nb_rows fuel k with
    | .error e => .error e
    | .ok j =>
      fill_edges_on wide hash dim degree nb_rows fuel r (k + 1) (edges.set k (k / degree, j))

/-- The function `gen_random_edgelist(dim, degree, nb_rows)` with the shift
given by `shift_one wide`. -/
def gen_random_edgelist_on (wide : Nat → Option Nat) (hash : Nat → Nat)
    (dim degree nb_rows fuel : Nat) : Except Fault edgelist :=
  let dim := dim % 2 ^ 64
  let degree := degree % 2 ^ 64
  let nb_rows := nb_rows % 2 ^ 64
  let nb_nonzeros := (degree * nb_rows) % 2 ^ 64
  if 2 ^ 63 ≤ nb_nonzeros then .error .alloc
  else
    fill_edges_on wide hash dim degree nb_rows fuel nb_nonzeros 0
      (List.replicate nb_nonzeros (0, 0))

/-- The function `gen_random_edgelist(target_nb_edges)` with the shift given
by `shift_one wide`. -/
def gen_random_edgelist_target_on (wide : Nat → Option Nat) (hash : Nat → Nat)
    (target_nb_edges : Int) (fuel : Nat) : Except Fault edgelist :=
  let dim : Int := 10
  let degree : Int := 8
  let nb_rows : Int := min degree target_nb_edges
  gen_random_edgelist_on wide hash (to_ulong dim) (to_ulong degree) (to_ulong nb_rows) fuel

/-- A mixing hash to run the generator on: one step of a 64-bit linear
congruential generator.  It stands in for `hash_unsigned` in examples. -/
def lcg (h : Nat) : Nat := (6364136223846793005 * h + 1442695040888963407) % 2 ^ 64

/-! ## Balanced-tree generator -/

/-- Local state of `gen_balanced_tree_edgelist`. -/
structure TreeState where
  prev : List Nat
  next : List Nat
  edges : edgelist
  fresh : Nat

/-- Body of the innermost loop: allocate a fresh child of `v`. -/
def tree_spawn (v : Nat) (s : TreeState) : TreeState :=
  let child := s.fresh
  { prev := s.prev
    next := s.next ++ [child]
    edges := s.edges ++ [mk_edge v child]
    fresh := s.fresh + 1 }

/-- The loop `for (n = 0; n < branching_factor; n++)` for one vertex `v`. -/
def tree_children (b : Nat) (v : Nat) (s : TreeState) : TreeState :=
  for_range b (fun _ acc => tree_spawn v acc) s

/-- One iteration of the outer loop: every vertex of `prev` gets its
children, then `prev.clear(); prev.swap(next)`. -/
def tree_level (b : Nat) (s : TreeState) : TreeState :=
  let s1 := s.prev.foldl (fun acc v => tree_children b v acc) s
  { prev := s1.next, next := [], edges := s1.edges, fresh := s1.fresh }

/-- State of `gen_balanced_tree_edgelist(branching_factor, height)` at its
`return`. -/
def gen_balanced_tree_state (branching_factor height : Int) : TreeState :=
  for_range height.toNat (fun _ acc => tree_level branching_factor.toNat acc)
    { prev := [0], next := [], edges := [], fresh := 1 }

/-- The function `gen_balanced_tree_edgelist(branching_factor, height)`. -/
def gen_balanced_tree_edgelist (branching_factor height : Int) : edgelist :=
  (gen_balanced_tree_state branching_factor height).edges

/-- The function `gen_balanced_tree_edgelist(target_nb_edges)`; `log2_up` is
declared in a header that is not part of the sources at hand and is taken
as a parameter. -/
def gen_balanced_tree_edgelist_target (log2_up : Int → Int) (target_nb_edges : Int) : edgelist :=
  let branching_factor : Int := 2
  let height : Int := log2_up target_nb_edges - 1
  gen_balanced_tree_edgelist branching_factor height

/-! ## Lattice generator -/

/-- The lambda `loc3d` of `gen_cube_grid_edgelist`, for side length `dn`. -/
def loc3d (dn x y z : Nat) : Nat :=
  ((x + dn) % dn) * dn * dn + ((y + dn) % dn) * dn + (z + dn) % dn

/-- Body of the innermost loop: the three writes for the cell `(i, j, k)`. -/
def cube_cell (dn i j k : Nat) (edges : edgelist) : edgelist :=
  let l := loc3d dn i j k
  ((edges.set (3 * l) (mk_edge l (loc3d dn (i + 1) j k))).set
      (3 * l + 1) (mk_edge l (loc3d dn i (j + 1) k))).set
      (3 * l + 2) (mk_edge l (loc3d dn i j (k + 1)))

/-- The triple loop of `gen_cube_grid_edgelist` on a pre-sized array. -/
def cube_loops (dn : Nat) (edges : edgelist) : edgelist :=
  for_range dn (fun i e1 =>
    for_range dn (fun j e2 =>
      for_range dn (fun k e3 => cube_cell dn i j k e3) e2) e1) edges

/-- The function `gen_cube_grid_edgelist(nb_on_side, _)`; a negative
`nb_edges` makes `edges.resize` throw, which is `none`. -/
def gen_cube_grid_edgelist (nb_on_side : Int) (_unused : Int) : Option edgelist :=
  let dn := nb_on_side
  let nn := dn * dn * dn
  let nb_edges := 3 * nn
  if nb_edges < 0 then none
  else some (cube_loops dn.toNat (List.replicate nb_edges.toNat (mk_edge 0 0)))

/-! ## Invariants used in the proofs -/

/-- Freshness invariant of the tree generator: every id of the current and
of the next frontier is below `fresh`, and every edge goes from a smaller
id to a larger one. -/
def TreeFresh (s : TreeState) : Prop :=
  (∀ v ∈ s.prev, v < s.fresh) ∧ (∀ v ∈ s.next, v < s.fresh) ∧ (∀ e ∈ s.edges, e.1 < e.2)


/-- The three slots of cell `(x, y, z)` hold the edges the loop body writes. -/
def CubeWritten (n : Nat) (es : edgelist) (x y z : Nat) : Prop :=
  es[3 * loc3d n x y z]? = some (loc3d n x y z, loc3d n (x + 1) y z) ∧
  es[3 * loc3d n x y z + 1]? = some (loc3d n x y z, loc3d n x (y + 1) z) ∧
  es[3 * loc3d n x y z + 2]? = some (loc3d n x y z, loc3d n x y (z + 1))

/-- Invariant of the triple loop: the array keeps its size and every cell
whose location is below `m` has been written. -/
def CubeInv (n m : Nat) (es : edgelist) : Prop :=
  es.length = 3 * (n * n * n) ∧
  ∀ x y z, x < n → y < n → z < n → x * n * n + y * n + z < m → CubeWritten n es x y z


/-- Closed form of the edges emitted so far by the tree generator: the
`k`-th edge is `(k / b, k + 1)`, and `fresh` is one more than their number. -/
def TreeEdgesOK (b : Nat) (s : TreeState) : Prop :=
  s.edges = (List.range s.edges.length).map (fun k => (k / b, k + 1)) ∧
  s.fresh = s.edges.length + 1

/-- Invariant of the outer loop of the tree generator: the edges are in
closed form, `next` is empty, and the frontier `prev` is the run of `len`
consecutive ids that starts at `p` and ends just below `fresh`, where `p`
is the next vertex to receive children (`p * b` edges exist). -/
def TreeLevelInv (b : Nat) (s : TreeState) : Prop :=
  TreeEdgesOK b s ∧ s.next = [] ∧
  ∃ p len, s.prev = List.range' p len ∧ p * b = s.edges.length ∧ p + len = s.fresh

/-! ## Loops -/

theorem for_range_zero {σ : Type} (body : Nat → σ → σ) (s : σ) : for_range 0 body s = s := rfl

theorem for_range_succ {σ : Type} (n : Nat) (body : Nat → σ → σ) (s : σ) :
    for_range (n + 1) body s = body n (for_range n body s) := by
  simp [for_range, List.range_succ, List.foldl_append]

/-- Loop-invariant rule for `for_range`. -/
theorem for_range_invariant {σ : Type} (P : Nat → σ → Prop) (n : Nat) (body : Nat → σ → σ)
    (s : σ) (h0 : P 0 s) (hstep : ∀ i t, i < n → P i t → P (i + 1) (body i t)) :
    P n (for_range n body s) := by
  induction n with
  | zero => exact h0
  | succ n ih =>
    rw [for_range_succ]
    exact hstep n _ (Nat.lt_succ_self n)
      (ih (fun i t hi hp => hstep i t (Nat.lt_succ_of_lt hi) hp))

/-! ### Equality oracle and sort property -/

theorem same_array_loop_iff (xs ys : List value_type) (r i : Nat) :
    same_array_loop xs ys r i = true ↔ ∀ t, t < r → xs.getD (i + t) 0 = ys.getD (i + t) 0 := by
  induction r generalizing i with
  | zero => simp [same_array_loop]
  | succ r ih =>
    simp only [same_array_loop]
    by_cases h : xs.getD i 0 = ys.getD i 0
    · simp only [h, bne_self_eq_false, Bool.false_eq_true, if_false, ih]
      constructor
      · intro H t ht
        rcases Nat.eq_zero_or_pos t with h0 | hpos
        · subst h0; simpa using h
        · have := H (t - 1) (by omega)
          have e : i + 1 + (t - 1) = i + t := by omega
          rwa [e] at this
      · intro H t ht
        have := H (t + 1) (by omega)
        have e : i + (t + 1) = i + 1 + t := by omega
        rwa [e] at this
    · have hb : (xs.getD i 0 != ys.getD i 0) = true := by simpa using h
      simp only [hb, if_true, Bool.false_eq_true, false_iff]
      intro H
      exact h (by simpa using H 0 (by omega))

theorem array_of_vector_eq (vec : List value_type) : array_of_vector vec = vec := by
  unfold array_of_vector tabulate
  apply List.ext_getElem
  · simp
  · intro i h1 h2
    simp [List.getD_eq_getElem?_getD, List.getElem?_eq_getElem h2]

theorem same_array_iff (xs ys : List value_type) :
    (same_array xs ys = true ↔
      xs.length = ys.length ∧ ∀ i, i < xs.length → xs.getD i 0 = ys.getD i 0) ∧
    (xs.length ≠ ys.length → same_array xs ys = false) := by
  unfold same_array
  by_cases h : xs.length = ys.length
  · have hb : (xs.length != ys.length) = false := by simpa using h
    simp only [hb, Bool.false_eq_true, if_false, same_array_loop_iff, Nat.zero_add]
    simp [h]
  · have hb : (xs.length != ys.length) = true := by simpa using h
    simp [hb, h]

/-- C1: for all arrays `xs` and `ys`, `same_array xs ys` is true exactly when
the two have the same length and agree at every index; in particular it is
false whenever the lengths differ, whatever the contents. -/
theorem same_array_correct (xs ys : List value_type) :
    (same_array xs ys = true ↔
      xs.length = ys.length ∧ ∀ i, i < xs.length → xs.getD i 0 = ys.getD i 0) ∧
    (xs.length ≠ ys.length → same_array xs ys = false) :=
  same_array_iff xs ys

/-- C2: for every vector `vec` and every pair of sort functions,
`array_of_vector vec` has the length and the elements of `vec` in the same
order, and `holdsFor vec` is true exactly when the trusted and the untrusted
function, both applied to that same array, return sequences of the same
length that agree at every position. -/
theorem sort_correct_holdsFor_iff (trusted_sort untrusted_sort : List value_type → List value_type)
    (vec : List value_type) :
    (array_of_vector vec).length = vec.length ∧
    (∀ i, i < vec.length → (array_of_vector vec).getD i 0 = vec.getD i 0) ∧
    (sort_correct_holdsFor trusted_sort untrusted_sort vec = true ↔
      (trusted_sort (array_of_vector vec)).length = (untrusted_sort (array_of_vector vec)).length ∧
      ∀ i, i < (trusted_sort (array_of_vector vec)).length →
        (trusted_sort (array_of_vector vec)).getD i 0
          = (untrusted_sort (array_of_vector vec)).getD i 0) := by
  refine ⟨by rw [array_of_vector_eq], fun i _ => by rw [array_of_vector_eq], ?_⟩
  exact (same_array_iff _ _).1

/-! ### Sizes in the tree generator -/

@[simp] theorem tree_spawn_prev (v : Nat) (s : TreeState) :
    (tree_spawn v s).prev = s.prev := rfl

@[simp] theorem tree_spawn_next (v : Nat) (s : TreeState) :
    (tree_spawn v s).next = s.next ++ [s.fresh] := rfl

@[simp] theorem tree_spawn_edges (v : Nat) (s : TreeState) :
    (tree_spawn v s).edges = s.edges ++ [(v, s.fresh)] := rfl

@[simp] theorem tree_spawn_fresh_eq (v : Nat) (s : TreeState) :
    (tree_spawn v s).fresh = s.fresh + 1 := rfl

theorem tree_children_sizes (b : Nat) (v : Nat) (s : TreeState) :
    (tree_children b v s).prev = s.prev ∧
    (tree_children b v s).next.length = s.next.length + b ∧
    (tree_children b v s).edges.length = s.edges.length + b ∧
    (tree_children b v s).fresh = s.fresh + b := by
  induction b with
  | zero => simp [tree_children, for_range_zero]
  | succ b ih =>
    obtain ⟨h1, h2, h3, h4⟩ := ih
    simp only [tree_children] at h1 h2 h3 h4 ⊢
    rw [for_range_succ]
    simp only [tree_spawn_prev, tree_spawn_next, tree_spawn_edges, tree_spawn_fresh_eq,
      List.length_append, List.length_singleton]
    exact ⟨h1, by omega, by omega, by omega⟩

theorem tree_frontier_sizes (b : Nat) (l : List Nat) (s : TreeState) :
    (l.foldl (fun acc v => tree_children b v acc) s).prev = s.prev ∧
    (l.foldl (fun acc v => tree_children b v acc) s).next.length = s.next.length + l.length * b ∧
    (l.foldl (fun acc v => tree_children b v acc) s).edges.length
      = s.edges.length + l.length * b ∧
    (l.foldl (fun acc v => tree_children b v acc) s).fresh = s.fresh + l.length * b := by
  induction l generalizing s with
  | nil => simp
  | cons v l ih =>
    obtain ⟨h1, h2, h3, h4⟩ := ih (tree_children b v s)
    obtain ⟨c1, c2, c3, c4⟩ := tree_children_sizes b v s
    simp only [List.foldl_cons, List.length_cons, h1, h2, h3, h4, c1, c2, c3, c4]
    refine ⟨trivial, ?_, ?_, ?_⟩ <;> ring

theorem tree_level_sizes (b : Nat) (s : TreeState) (hnext : s.next = []) :
    (tree_level b s).prev.length = s.prev.length * b ∧
    (tree_level b s).next = [] ∧
    (tree_level b s).edges.length = s.edges.length + s.prev.length * b ∧
    (tree_level b s).fresh = s.fresh + s.prev.length * b := by
  obtain ⟨_, h2, h3, h4⟩ := tree_frontier_sizes b s.prev s
  simp only [tree_level, h2, h3, h4, hnext, List.length_nil, Nat.zero_add, and_self]

theorem tree_state_sizes (b h : Nat) :
    (gen_balanced_tree_state b h).prev.length = b ^ h ∧
    (gen_balanced_tree_state b h).next = [] ∧
    (gen_balanced_tree_state b h).edges.length = ∑ i in Finset.range h, b ^ (i + 1) ∧
    (gen_balanced_tree_state b h).fresh = 1 + ∑ i in Finset.range h, b ^ (i + 1) := by
  simp only [gen_balanced_tree_state, Int.toNat_ofNat]
  induction h with
  | zero => simp [for_range_zero]
  | succ h ih =>
    obtain ⟨h1, h2, h3, h4⟩ := ih
    rw [for_range_succ]
    obtain ⟨l1, l2, l3, l4⟩ := tree_level_sizes b _ h2
    rw [l1, l3, l4, h1, h3, h4, Finset.sum_range_succ]
    refine ⟨by ring, l2, by ring, by ring⟩

/-- C7: for every branching factor `b ≥ 0` and height `h ≥ 0` the tree
generator returns `b + b^2 + ... + b^h` edges and allocates
`1 + b + b^2 + ... + b^h` vertex ids (the final value of `fresh`: the root 0
and every child id), so the edge count is the vertex count minus one; for
`b = 2`, `h = 3` that is 14 edges and 15 vertices. -/
theorem tree_edge_and_vertex_count (b h : Nat) :
    (gen_balanced_tree_edgelist b h).length = ∑ i in Finset.range h, b ^ (i + 1) ∧
    (gen_balanced_tree_state b h).fresh = 1 + ∑ i in Finset.range h, b ^ (i + 1) ∧
    (gen_balanced_tree_edgelist b h).length = (gen_balanced_tree_state b h).fresh - 1 ∧
    (gen_balanced_tree_edgelist 2 3).length = 14 ∧
    (gen_balanced_tree_state 2 3).fresh = 15 := by
  obtain ⟨_, _, h3, h4⟩ := tree_state_sizes b h
  refine ⟨h3, h4, ?_, by decide, by decide⟩
  unfold gen_balanced_tree_edgelist
  omega

/-! ### Freshness in the tree generator -/

theorem tree_spawn_fresh (v : Nat) (s : TreeState) (hv : v < s.fresh)
    (hs : TreeFresh s) : TreeFresh (tree_spawn v s) := by
  obtain ⟨h1, h2, h3⟩ := hs
  refine ⟨?_, ?_, ?_⟩
  · intro w hw
    have := h1 w hw
    simp only [tree_spawn_fresh_eq, tree_spawn_prev] at *; omega
  · intro w hw
    simp only [tree_spawn_next, tree_spawn_fresh_eq, List.mem_append, List.mem_singleton] at hw ⊢
    rcases hw with hw | hw
    · have := h2 w hw; omega
    · omega
  · intro e he
    simp only [tree_spawn_edges, List.mem_append, List.mem_singleton] at he
    rcases he with he | he
    · exact h3 e he
    · subst he; exact hv

theorem tree_children_fresh (b : Nat) (v : Nat) (s : TreeState) (hv : v < s.fresh)
    (hs : TreeFresh s) :
    TreeFresh (tree_children b v s) ∧ s.fresh ≤ (tree_children b v s).fresh := by
  induction b with
  | zero => exact ⟨hs, le_refl _⟩
  | succ b ih =>
    obtain ⟨i1, i2⟩ := ih
    simp only [tree_children] at i1 i2 ⊢
    rw [for_range_succ]
    refine ⟨tree_spawn_fresh v _ (by omega) i1, ?_⟩
    simp only [tree_spawn_fresh_eq]; omega

theorem tree_frontier_fresh (b : Nat) (l : List Nat) (s : TreeState)
    (hl : ∀ v ∈ l, v < s.fresh) (hs : TreeFresh s) :
    TreeFresh (l.foldl (fun acc v => tree_children b v acc) s) := by
  induction l generalizing s with
  | nil => exact hs
  | cons v l ih =>
    obtain ⟨c1, c2⟩ := tree_children_fresh b v s (hl v (List.mem_cons_self _ _)) hs
    simp only [List.foldl_cons]
    refine ih _ (fun w hw => ?_) c1
    have := hl w (List.mem_cons_of_mem _ hw)
    omega

theorem tree_level_fresh (b : Nat) (s : TreeState) (hs : TreeFresh s) :
    TreeFresh (tree_level b s) := by
  obtain ⟨_, h2, h3⟩ := tree_frontier_fresh b s.prev s hs.1 hs
  exact ⟨h2, by simp [tree_level], h3⟩

theorem tree_state_fresh (b h : Nat) :
    TreeFresh (for_range h (fun _ acc => tree_level b acc)
      { prev := [0], next := [], edges := [], fresh := 1 }) := by
  induction h with
  | zero => simp [for_range_zero, TreeFresh]
  | succ h ih => rw [for_range_succ]; exact tree_level_fresh b _ ih

/-- C10: for every branching factor and height (of either sign), no edge of
the tree generator has its source equal to its target: every edge goes from
an id to a strictly larger, freshly allocated one. -/
theorem tree_no_self_loop (b h : Int) :
    ∀ e ∈ gen_balanced_tree_edgelist b h, e.1 ≠ e.2 := by
  intro e he
  exact Nat.ne_of_lt ((tree_state_fresh b.toNat h.toNat).2.2 e he)

/-- Instance of `tree_no_self_loop` at branching factor 2 and height 3, for
the last edge `(6, 14)`. -/
theorem tree_no_self_loop_witness :
    ((6, 14) : edge) ∈ gen_balanced_tree_edgelist 2 3 ∧
    ((6, 14) : edge).1 ≠ ((6, 14) : edge).2 :=
  ⟨by decide, tree_no_self_loop 2 3 (6, 14) (by decide)⟩

/-! ### Lattice generator -/

theorem loc3d_eq (n x y z : Nat) :
    loc3d n x y z = (x % n) * n * n + (y % n) * n + z % n := by
  simp [loc3d, Nat.add_mod_right]

theorem loc3d_of_lt (n x y z : Nat) (hx : x < n) (hy : y < n) (hz : z < n) :
    loc3d n x y z = x * n * n + y * n + z := by
  rw [loc3d_eq, Nat.mod_eq_of_lt hx, Nat.mod_eq_of_lt hy, Nat.mod_eq_of_lt hz]

theorem lin_lt (n x y z : Nat) (hx : x < n) (hy : y < n) (hz : z < n) :
    x * n * n + y * n + z < n * n * n := by
  have h1 : y * n + z < n * n := by
    have : (y + 1) * n ≤ n * n := Nat.mul_le_mul_right n hy
    have e : (y + 1) * n = y * n + n := by ring
    omega
  have h2 : (x + 1) * (n * n) ≤ n * (n * n) := Nat.mul_le_mul_right (n * n) hx
  have e2 : (x + 1) * (n * n) = x * n * n + n * n := by ring
  have e3 : n * (n * n) = n * n * n := by ring
  omega

theorem lin_inj (n a b c d : Nat) (hb : b < n) (hd : d < n) (h : a * n + b = c * n + d) :
    a = c ∧ b = d := by
  have hn : 0 < n := by omega
  have e1 : (a * n + b) % n = b := by
    rw [Nat.add_comm, Nat.add_mul_mod_self_right, Nat.mod_eq_of_lt hb]
  have e2 : (c * n + d) % n = d := by
    rw [Nat.add_comm, Nat.add_mul_mod_self_right, Nat.mod_eq_of_lt hd]
  have hbd : b = d := by rw [← e1, ← e2, h]
  subst hbd
  have : a * n = c * n := by omega
  exact ⟨Nat.eq_of_mul_eq_mul_right hn this, rfl⟩

theorem lin3_inj (n x y z i j k : Nat) (hy : y < n) (hz : z < n) (hj : j < n) (hk : k < n)
    (h : x * n * n + y * n + z = i * n * n + j * n + k) : x = i ∧ y = j ∧ z = k := by
  have h' : (x * n + y) * n + z = (i * n + j) * n + k := by
    have e1 : (x * n + y) * n + z = x * n * n + y * n + z := by ring
    have e2 : (i * n + j) * n + k = i * n * n + j * n + k := by ring
    omega
  obtain ⟨h1, h2⟩ := lin_inj n _ z _ k hz hk h'
  obtain ⟨h3, h4⟩ := lin_inj n x y i j hy hj h1
  exact ⟨h3, h4, h2⟩

/-- Every index below `n ^ 3` is the location of a cell. -/
theorem lin_surj (n l : Nat) (hl : l < n * n * n) :
    ∃ x y z, x < n ∧ y < n ∧ z < n ∧ l = x * n * n + y * n + z := by
  have hn : 0 < n := by
    rcases Nat.eq_zero_or_pos n with h | h
    · subst h; simp at hl
    · exact h
  refine ⟨l / n / n, l / n % n, l % n, ?_, Nat.mod_lt _ hn, Nat.mod_lt _ hn, ?_⟩
  · rw [Nat.div_lt_iff_lt_mul hn, Nat.div_lt_iff_lt_mul hn]; exact hl
  · have e1 := Nat.div_add_mod l n
    have e2 := Nat.div_add_mod (l / n) n
    calc l = n * (l / n) + l % n := e1.symm
      _ = n * (n * (l / n / n) + l / n % n) + l % n := by rw [e2]
      _ = l / n / n * n * n + l / n % n * n + l % n := by ring

theorem cube_cell_length (n i j k : Nat) (es : edgelist) :
    (cube_cell n i j k es).length = es.length := by
  simp [cube_cell]

theorem cube_cell_inv (n i j k : Nat) (es : edgelist) (hi : i < n) (hj : j < n) (hk : k < n)
    (h : CubeInv n (i * n * n + j * n + k) es) :
    CubeInv n (i * n * n + j * n + k + 1) (cube_cell n i j k es) := by
  obtain ⟨hlen, hw⟩ := h
  refine ⟨by rw [cube_cell_length, hlen], ?_⟩
  intro x y z hx hy hz hlt
  have hl := loc3d_of_lt n i j k hi hj hk
  have hb := lin_lt n i j k hi hj hk
  by_cases heq : x * n * n + y * n + z = i * n * n + j * n + k
  · obtain ⟨rfl, rfl, rfl⟩ := lin3_inj n x y z i j k hy hz hj hk heq
    refine ⟨?_, ?_, ?_⟩
    · simp only [cube_cell, mk_edge]
      rw [List.getElem?_set_ne (by omega), List.getElem?_set_ne (by omega),
        List.getElem?_set_self (by omega)]
    · simp only [cube_cell, mk_edge]
      rw [List.getElem?_set_ne (by omega),
        List.getElem?_set_self (by rw [List.length_set]; omega)]
    · simp only [cube_cell, mk_edge]
      rw [List.getElem?_set_self (by rw [List.length_set, List.length_set]; omega)]
  · have hold := hw x y z hx hy hz (by omega)
    have hl' := loc3d_of_lt n x y z hx hy hz
    obtain ⟨h1, h2, h3⟩ := hold
    refine ⟨?_, ?_, ?_⟩
    · simp only [cube_cell, mk_edge]
      rw [List.getElem?_set_ne (by omega), List.getElem?_set_ne (by omega),
        List.getElem?_set_ne (by omega)]
      exact h1
    · simp only [cube_cell, mk_edge]
      rw [List.getElem?_set_ne (by omega), List.getElem?_set_ne (by omega),
        List.getElem?_set_ne (by omega)]
      exact h2
    · simp only [cube_cell, mk_edge]
      rw [List.getElem?_set_ne (by omega), List.getElem?_set_ne (by omega),
        List.getElem?_set_ne (by omega)]
      exact h3

theorem cube_loops_inv (n : Nat) (es : edgelist) (hlen : es.length = 3 * (n * n * n)) :
    CubeInv n (n * n * n) (cube_loops n es) := by
  unfold cube_loops
  refine for_range_invariant (fun i t => CubeInv n (i * n * n) t) n _ es ?_ ?_
  · exact ⟨hlen, fun x y z _ _ _ h => by simp at h⟩
  · intro i t hi ht
    have e : (i + 1) * n * n = i * n * n + n * n := by ring
    show CubeInv n ((i + 1) * n * n) _
    rw [e]
    refine for_range_invariant (fun j t => CubeInv n (i * n * n + j * n) t) n _ t ?_ ?_
    · simpa using ht
    · intro j t2 hj ht2
      have e2 : i * n * n + (j + 1) * n = i * n * n + j * n + n := by ring
      show CubeInv n (i * n * n + (j + 1) * n) _
      rw [e2]
      refine for_range_invariant (fun k t => CubeInv n (i * n * n + j * n + k) t) n _ t2 ?_ ?_
      · simpa using ht2
      · intro k t3 hk ht3
        exact cube_cell_inv n i j k t3 hi hj hk ht3

theorem gen_cube_grid_eq (n : Nat) (u : Int) :
    gen_cube_grid_edgelist n u
      = some (cube_loops n (List.replicate (3 * (n * n * n)) (0, 0))) := by
  have e : (3 * ((n : Int) * n * n)) = ((3 * (n * n * n) : Nat) : Int) := by push_cast; ring
  simp only [gen_cube_grid_edgelist, e, Int.toNat_ofNat, mk_edge]
  rw [if_neg (by omega)]

/-- Content of the array returned for side length `n`. -/
theorem cube_grid_written (n : Nat) (u : Int) :
    ∃ es, gen_cube_grid_edgelist n u = some es ∧ es.length = 3 * (n * n * n) ∧
      ∀ x y z, x < n → y < n → z < n → CubeWritten n es x y z := by
  refine ⟨_, gen_cube_grid_eq n u, ?_⟩
  obtain ⟨h1, h2⟩ := cube_loops_inv n (List.replicate (3 * (n * n * n)) (0, 0)) (by simp)
  exact ⟨h1, fun x y z hx hy hz => h2 x y z hx hy hz (lin_lt n x y z hx hy hz)⟩



theorem succ_mod_ne (n x : Nat) (hn : 2 ≤ n) (hx : x < n) : (x + 1) % n ≠ x := by
  by_cases h : x + 1 < n
  · rw [Nat.mod_eq_of_lt h]; omega
  · have e : x + 1 = n := by omega
    rw [e, Nat.mod_self]; omega

/-- Every slot of the returned array: its source is a third of its index,
and for side length at least 2 its target differs from its source. -/
theorem cube_grid_slot (n : Nat) (u : Int) :
    ∃ es, gen_cube_grid_edgelist n u = some es ∧ es.length = 3 * (n * n * n) ∧
      ∀ idx, idx < 3 * (n * n * n) →
        ∃ e, es[idx]? = some e ∧ e.1 = idx / 3 ∧ (2 ≤ n → e.1 ≠ e.2) := by
  obtain ⟨es, hes, hlen, hw⟩ := cube_grid_written n u
  refine ⟨es, hes, hlen, ?_⟩
  intro idx hidx
  obtain ⟨x, y, z, hx, hy, hz, hl⟩ := lin_surj n (idx / 3) (by omega)
  obtain ⟨w0, w1, w2⟩ := hw x y z hx hy hz
  have hloc := loc3d_of_lt n x y z hx hy hz
  rw [hloc] at w0 w1 w2
  have hpos : 0 < n := by omega
  have hc : idx = 3 * (x * n * n + y * n + z) ∨ idx = 3 * (x * n * n + y * n + z) + 1 ∨
      idx = 3 * (x * n * n + y * n + z) + 2 := by omega
  rcases hc with hc | hc | hc
  · refine ⟨_, by rw [hc]; exact w0, by simp only; omega, ?_⟩
    intro hn
    simp only [loc3d_eq, Nat.mod_eq_of_lt hy, Nat.mod_eq_of_lt hz]
    intro hEq
    have h1 : (x + 1) % n * n * n = x * n * n := by omega
    have h2 : (x + 1) % n * n = x * n := Nat.eq_of_mul_eq_mul_right hpos h1
    exact succ_mod_ne n x hn hx (Nat.eq_of_mul_eq_mul_right hpos h2)
  · refine ⟨_, by rw [hc]; exact w1, by simp only; omega, ?_⟩
    intro hn
    simp only [loc3d_eq, Nat.mod_eq_of_lt hx, Nat.mod_eq_of_lt hz]
    intro hEq
    have h1 : (y + 1) % n * n = y * n := by omega
    exact succ_mod_ne n y hn hy (Nat.eq_of_mul_eq_mul_right hpos h1)
  · refine ⟨_, by rw [hc]; exact w2, by simp only; omega, ?_⟩
    intro hn
    simp only [loc3d_eq, Nat.mod_eq_of_lt hx, Nat.mod_eq_of_lt hy]
    intro hEq
    have h1 : (z + 1) % n = z := by omega
    exact succ_mod_ne n z hn hz h1

theorem count_thirds (N v : Nat) :
    ((List.range (3 * N)).map (fun i => i / 3)).count v = if v < N then 3 else 0 := by
  induction N with
  | zero => simp
  | succ N ih =>
    have e : 3 * (N + 1) = 3 * N + 1 + 1 + 1 := by ring
    rw [e, List.range_succ, List.range_succ, List.range_succ]
    simp only [List.map_append, List.map_cons, List.map_nil, List.count_append, ih,
      List.count_cons, List.count_nil]
    have d0 : 3 * N / 3 = N := by omega
    have d1 : (3 * N + 1) / 3 = N := by omega
    have d2 : (3 * N + 1 + 1) / 3 = N := by omega
    rw [d0, d1, d2]
    by_cases h1 : v < N
    · have hne : ¬ (N = v) := by omega
      have h3 : v < N + 1 := by omega
      simp [h1, hne, h3]
    · by_cases h2 : N = v
      · subst h2; simp
      · have : ¬ (v < N + 1) := by omega
        simp [h1, h2, this]

theorem sources_eq (N : Nat) (es : edgelist) (hlen : es.length = 3 * N)
    (h : ∀ idx, idx < 3 * N → ∃ e, es[idx]? = some e ∧ e.1 = idx / 3) :
    es.map Prod.fst = (List.range (3 * N)).map (fun i => i / 3) := by
  apply List.ext_getElem
  · simp [hlen]
  · intro i h1 h2
    simp only [List.length_map] at h1
    obtain ⟨e, he, hs⟩ := h i (by omega)
    rw [List.getElem?_eq_getElem h1] at he
    simp only [Option.some.injEq] at he
    simp [he, hs]

/-- C6: for every side length `n ≥ 0` the lattice generator returns a list
of exactly `3 * n^3` edges; for `n = 2` it has 24 edges. -/
theorem cube_grid_edge_count (n : Nat) (u : Int) :
    (gen_cube_grid_edgelist n u).map List.length = some (3 * n ^ 3) ∧
    (gen_cube_grid_edgelist 2 u).map List.length = some 24 := by
  constructor
  · obtain ⟨es, hes, hlen, _⟩ := cube_grid_written n u
    rw [hes, Option.map_some', hlen]; congr 2; ring
  · obtain ⟨es, hes, hlen, _⟩ := cube_grid_written 2 u
    have hes' : gen_cube_grid_edgelist 2 u = some es := hes
    rw [hes', Option.map_some', hlen]

/-- C8: for every side length `n ≥ 1` and every vertex `v < n^3`, exactly
three edges of the lattice have source `v`; every slot of the pre-sized
array is one of the three slots `3 * loc3d i j k + c` written for a cell
`(i, j, k)` of the triple loop. -/
theorem cube_grid_out_degree (n : Nat) (u : Int) (v : Nat) (_hn : 1 ≤ n) (hv : v < n ^ 3) :
    ∃ es, gen_cube_grid_edgelist n u = some es ∧
      es.countP (fun e => e.1 == v) = 3 ∧
      ∀ idx, idx < es.length →
        ∃ i j k c, i < n ∧ j < n ∧ k < n ∧ c < 3 ∧ idx = 3 * loc3d n i j k + c := by
  obtain ⟨es, hes, hlen, hslot⟩ := cube_grid_slot n u
  refine ⟨es, hes, ?_, ?_⟩
  · have hsrc := sources_eq (n * n * n) es hlen
      (fun idx hidx => by
        obtain ⟨e, he, hs, _⟩ := hslot idx hidx
        exact ⟨e, he, hs⟩)
    have hc := count_thirds (n * n * n) v
    rw [← hsrc, List.count, List.countP_map] at hc
    have hv' : v < n * n * n := by
      have : n ^ 3 = n * n * n := by ring
      omega
    rw [if_pos hv'] at hc
    rw [← hc]
    rfl
  · intro idx hidx
    rw [hlen] at hidx
    obtain ⟨x, y, z, hx, hy, hz, hl⟩ := lin_surj n (idx / 3) (by omega)
    refine ⟨x, y, z, idx % 3, hx, hy, hz, Nat.mod_lt _ (by omega), ?_⟩
    rw [loc3d_of_lt n x y z hx hy hz, ← hl]
    omega

/-- Instance of `cube_grid_out_degree` at side length 2 and vertex 5. -/
theorem cube_grid_out_degree_witness :
    ∃ es, gen_cube_grid_edgelist (2 : Nat) 0 = some es ∧
      es.countP (fun e => e.1 == 5) = 3 ∧
      ∀ idx, idx < es.length →
        ∃ i j k c, i < 2 ∧ j < 2 ∧ k < 2 ∧ c < 3 ∧ idx = 3 * loc3d 2 i j k + c :=
  cube_grid_out_degree 2 0 5 (by decide) (by decide)

/-- C3 as stated fails at side length 1: the lattice generator returns the
three edges `(0, 0)`, each a self-loop. -/
theorem cube_grid_self_loop_side_one :
    gen_cube_grid_edgelist 1 0 = some [(0, 0), (0, 0), (0, 0)] ∧
    ¬ (∀ es, gen_cube_grid_edgelist 1 0 = some es → ∀ e ∈ es, e.1 ≠ e.2) := by
  have h : gen_cube_grid_edgelist 1 0 = some [(0, 0), (0, 0), (0, 0)] := by decide
  refine ⟨h, fun H => ?_⟩
  exact H _ h (0, 0) (by simp) rfl

/-- C3, amended: for every side length `n ≥ 2`, the lattice generator returns
a list in which no edge has its source equal to its target. -/
theorem cube_grid_no_self_loop (n : Nat) (u : Int) (hn : 2 ≤ n) :
    ∃ es, gen_cube_grid_edgelist n u = some es ∧ ∀ e ∈ es, e.1 ≠ e.2 := by
  obtain ⟨es, hes, hlen, hslot⟩ := cube_grid_slot n u
  refine ⟨es, hes, ?_⟩
  intro e he
  obtain ⟨idx, hidx, hget⟩ := List.mem_iff_getElem.mp he
  obtain ⟨e', he', _, hne⟩ := hslot idx (by omega)
  rw [List.getElem?_eq_getElem hidx, hget] at he'
  simp only [Option.some.injEq] at he'
  subst he'
  exact hne hn

/-- Instance of `cube_grid_no_self_loop` at side length 2. -/
theorem cube_grid_no_self_loop_witness :
    ∃ es, gen_cube_grid_edgelist (2 : Nat) 0 = some es ∧ ∀ e ∈ es, e.1 ≠ e.2 :=
  cube_grid_no_self_loop 2 0 (by decide)


/-! ### Random generator -/

theorem reroll_uniform_ne (hash : Nat → Nat) (nb_rows i f h j : Nat)
    (hok : reroll_uniform hash nb_rows i f h = .ok j) : j ≠ i := by
  induction f generalizing h with
  | zero => simp [reroll_uniform] at hok
  | succ f ih =>
    simp only [reroll_uniform] at hok
    split at hok
    · exact ih _ hok
    · rename_i hne
      simp only [Except.ok.injEq] at hok
      rw [← hok]; exact hne

theorem reroll_windowed_on_ne (wide : Nat → Option Nat) (hash : Nat → Nat)
    (dim nb_rows i fuel f h pow j : Nat)
    (hok : reroll_windowed_on wide hash dim nb_rows i fuel f h pow = .ok j) : j ≠ i := by
  induction f generalizing h pow with
  | zero => simp [reroll_windowed_on] at hok
  | succ f ih =>
    simp only [reroll_windowed_on] at hok
    split at hok
    · simp at hok
    · split at hok
      · simp at hok
      · split at hok
        · simp at hok
        · split at hok
          · exact ih _ _ hok
          · rename_i hne
            simp only [Except.ok.injEq] at hok
            rw [← hok]; exact hne

theorem reroll_windowed_on_lt (wide : Nat → Option Nat) (hash : Nat → Nat)
    (dim nb_rows i fuel f h pow j : Nat) (hr : 0 < nb_rows)
    (hok : reroll_windowed_on wide hash dim nb_rows i fuel f h pow = .ok j) : j < nb_rows := by
  induction f generalizing h pow with
  | zero => simp [reroll_windowed_on] at hok
  | succ f ih =>
    simp only [reroll_windowed_on] at hok
    split at hok
    · simp at hok
    · split at hok
      · simp at hok
      · split at hok
        · simp at hok
        · split at hok
          · exact ih _ _ hok
          · simp only [Except.ok.injEq] at hok
            rw [← hok]; exact Nat.mod_lt _ hr

/-- On the platform that stops at a wide shift the loop is `reroll_windowed`. -/
theorem reroll_windowed_on_undefined (hash : Nat → Nat) (dim nb_rows i fuel f h pow : Nat) :
    reroll_windowed_on shift_undefined hash dim nb_rows i fuel f h pow
      = reroll_windowed hash dim nb_rows i fuel f h pow := by
  induction f generalizing h pow with
  | zero => rfl
  | succ f ih =>
    simp only [reroll_windowed_on, reroll_windowed]
    split
    · rfl
    · rename_i h1 pow1 _
      by_cases hp : 64 ≤ pow1
      · have hlt : ¬ pow1 < 64 := by omega
        simp only [shift_one, shift_undefined, hlt, if_false, hp, if_true]
      · have hlt : pow1 < 64 := by omega
        have hw : 2 ^ pow1 % 2 ^ 64 = 2 ^ pow1 :=
          Nat.mod_eq_of_lt (Nat.pow_lt_pow_right (by norm_num) hlt)
        have hne : ¬ (2 ^ pow1 = 0) := by positivity
        simp only [shift_one, hlt, if_true, hw, hne, if_false, hp, ih]

theorem pick_target_on_undefined (hash : Nat → Nat) (dim degree nb_rows fuel k : Nat) :
    pick_target_on shift_undefined hash dim degree nb_rows fuel k
      = pick_target hash dim degree nb_rows fuel k := by
  simp only [pick_target_on, pick_target, reroll_windowed_on_undefined]

theorem fill_edges_on_undefined (hash : Nat → Nat) (dim degree nb_rows fuel r k : Nat)
    (edges : edgelist) :
    fill_edges_on shift_undefined hash dim degree nb_rows fuel r k edges
      = fill_edges hash dim degree nb_rows fuel r k edges := by
  induction r generalizing k edges with
  | zero => rfl
  | succ r ih => simp only [fill_edges_on, fill_edges, pick_target_on_undefined, ih]

/-- The embedding that stops at a wide shift is the general one on the
platform `shift_undefined`. -/
theorem gen_random_edgelist_on_undefined (hash : Nat → Nat) (dim degree nb_rows fuel : Nat) :
    gen_random_edgelist_on shift_undefined hash dim degree nb_rows fuel
      = gen_random_edgelist hash dim degree nb_rows fuel := by
  simp only [gen_random_edgelist_on, gen_random_edgelist, fill_edges_on_undefined]

theorem gen_random_edgelist_target_on_undefined (hash : Nat → Nat) (t : Int) (fuel : Nat) :
    gen_random_edgelist_target_on shift_undefined hash t fuel
      = gen_random_edgelist_target hash t fuel := by
  simp only [gen_random_edgelist_target_on, gen_random_edgelist_target,
    gen_random_edgelist_on_undefined]

theorem pick_target_on_ne (wide : Nat → Option Nat) (hash : Nat → Nat)
    (dim degree nb_rows fuel k j : Nat)
    (hok : pick_target_on wide hash dim degree nb_rows fuel k = .ok j) : j ≠ k / degree := by
  simp only [pick_target_on] at hok
  split at hok
  · exact reroll_uniform_ne _ _ _ _ _ _ hok
  · exact reroll_windowed_on_ne _ _ _ _ _ _ _ _ _ _ hok

/-- Content of the array after the main loop: slots below the start index
are untouched, every later slot `idx` holds `(idx / degree, j)` for the
target `j` picked for `idx`. -/
theorem fill_edges_on_spec (wide : Nat → Option Nat) (hash : Nat → Nat)
    (dim degree nb_rows fuel : Nat) (r k : Nat) (edges es : edgelist)
    (hlen : edges.length = k + r)
    (hok : fill_edges_on wide hash dim degree nb_rows fuel r k edges = .ok es) :
    es.length = k + r ∧
    (∀ idx, idx < k → es[idx]? = edges[idx]?) ∧
    (∀ idx, k ≤ idx → idx < k + r →
      ∃ j, pick_target_on wide hash dim degree nb_rows fuel idx = .ok j ∧
        es[idx]? = some (idx / degree, j)) := by
  induction r generalizing k edges with
  | zero =>
    simp only [fill_edges_on, Except.ok.injEq] at hok
    subst hok
    exact ⟨hlen, fun _ _ => rfl, fun idx h1 h2 => by omega⟩
  | succ r ih =>
    simp only [fill_edges_on] at hok
    split at hok
    · simp at hok
    · rename_i j hj
      obtain ⟨h1, h2, h3⟩ := ih (k + 1) (edges.set k (k / degree, j))
        (by rw [List.length_set]; omega) hok
      refine ⟨by omega, ?_, ?_⟩
      · intro idx hidx
        rw [h2 idx (by omega), List.getElem?_set_ne (by omega)]
      · intro idx hk hlt
        rcases Nat.eq_or_lt_of_le hk with heq | hgt
        · subst heq
          refine ⟨j, hj, ?_⟩
          rw [h2 k (by omega), List.getElem?_set_self (by omega)]
        · exact h3 idx (by omega) (by omega)

/-- Content of the list returned by the random generator, on every
platform. -/
theorem gen_random_edgelist_on_spec (wide : Nat → Option Nat) (hash : Nat → Nat)
    (dim degree nb_rows fuel : Nat) (es : edgelist)
    (hok : gen_random_edgelist_on wide hash dim degree nb_rows fuel = .ok es) :
    es.length = (degree % 2 ^ 64) * (nb_rows % 2 ^ 64) % 2 ^ 64 ∧
    ∀ idx, idx < es.length →
      ∃ j, pick_target_on wide hash (dim % 2 ^ 64) (degree % 2 ^ 64) (nb_rows % 2 ^ 64)
          fuel idx = .ok j ∧
        es[idx]? = some (idx / (degree % 2 ^ 64), j) := by
  simp only [gen_random_edgelist_on] at hok
  split at hok
  · simp at hok
  · obtain ⟨h1, _, h3⟩ := fill_edges_on_spec _ _ _ _ _ _ _ 0 _ es (by simp) hok
    rw [Nat.zero_add] at h1 h3
    exact ⟨h1, fun idx hidx => h3 idx (Nat.zero_le _) (by omega)⟩

/-- C9: for every `dim`, `degree`, `nb_rows` and every hash function,
whenever `gen_random_edgelist` returns a list, no edge of it has its source
equal to its target, in the `dim = 0` mode and in the windowed mode alike;
this holds whatever the platform does with a shift by 64 or more (`wide`),
so also of the runs in which `pow` reaches 64 and the generator goes on. -/
theorem random_no_self_loop (wide : Nat → Option Nat) (hash : Nat → Nat)
    (dim degree nb_rows fuel : Nat) (es : edgelist)
    (hok : gen_random_edgelist_on wide hash dim degree nb_rows fuel = .ok es) :
    ∀ e ∈ es, e.1 ≠ e.2 := by
  obtain ⟨_, hslot⟩ := gen_random_edgelist_on_spec wide hash dim degree nb_rows fuel es hok
  intro e he
  obtain ⟨idx, hidx, hget⟩ := List.mem_iff_getElem.mp he
  obtain ⟨j, hj, hs⟩ := hslot idx hidx
  rw [List.getElem?_eq_getElem hidx, hget] at hs
  simp only [Option.some.injEq] at hs
  subst hs
  exact fun h => pick_target_on_ne _ _ _ _ _ _ _ _ hj h.symm

/-- Instance of `random_no_self_loop` in the windowed mode, on the program's
own parameters (`dim = 10`, `degree = 8`) with 3 rows, the mixing hash `lcg`
and the masked shift: the run returns 24 edges; for the edge `(0, 2)` at
index 3 the exponent `pow` reaches 82 before the target is computed. -/
theorem random_no_self_loop_witness :
    gen_random_edgelist_on shift_masked lcg 10 8 3 12
      = .ok [(0, 2), (0, 1), (0, 1), (0, 2), (0, 2), (0, 2), (0, 1), (0, 1),
        (1, 2), (1, 0), (1, 0), (1, 2), (1, 2), (1, 2), (1, 0), (1, 2),
        (2, 1), (2, 0), (2, 1), (2, 1), (2, 1), (2, 1), (2, 1), (2, 0)] ∧
    pick_target_on shift_undefined lcg 10 8 3 12 3 = .error (.shift 82) ∧
    ((0, 2) : edge) ∈
      ([(0, 2), (0, 1), (0, 1), (0, 2), (0, 2), (0, 2), (0, 1), (0, 1),
        (1, 2), (1, 0), (1, 0), (1, 2), (1, 2), (1, 2), (1, 0), (1, 2),
        (2, 1), (2, 0), (2, 1), (2, 1), (2, 1), (2, 1), (2, 1), (2, 0)] : edgelist) ∧
    ((0, 2) : edge).1 ≠ ((0, 2) : edge).2 :=
  ⟨by rfl, by rfl, by decide,
    random_no_self_loop shift_masked lcg 10 8 3 12
      [(0, 2), (0, 1), (0, 1), (0, 2), (0, 2), (0, 2), (0, 1), (0, 1),
        (1, 2), (1, 0), (1, 0), (1, 2), (1, 2), (1, 2), (1, 0), (1, 2),
        (2, 1), (2, 0), (2, 1), (2, 1), (2, 1), (2, 1), (2, 1), (2, 0)] (by rfl)
      (0, 2) (by decide)⟩

theorem to_ulong_of_nat (n : Nat) (h : n < 2 ^ 64) : to_ulong (n : Int) = n := by
  unfold to_ulong
  have e : ((n : Int) % 2 ^ 64) = ((n % 2 ^ 64 : Nat) : Int) := by push_cast; rfl
  rw [e, Int.toNat_ofNat, Nat.mod_eq_of_lt h]

/-- C4 as stated fails at `target_nb_edges = 2`: with the constant hash
500001 the generation finishes and returns 16 edges (degree 8 times 2 rows),
not `min(8, 2)^2 = 4`. -/
theorem random_target_two_has_sixteen_edges :
    gen_random_edgelist_target (fun _ => 500001) 2 1
      = .ok [(0, 1), (0, 1), (0, 1), (0, 1), (0, 1), (0, 1), (0, 1), (0, 1),
             (1, 0), (1, 0), (1, 0), (1, 0), (1, 0), (1, 0), (1, 0), (1, 0)] ∧
    ¬ (∀ (hash : Nat → Nat) (t : Int) (fuel : Nat) (es : edgelist), 0 < t →
        gen_random_edgelist_target hash t fuel = .ok es →
        (es.length : Int) = min 8 t * min 8 t) := by
  have h : gen_random_edgelist_target (fun _ => 500001) 2 1
      = .ok [(0, 1), (0, 1), (0, 1), (0, 1), (0, 1), (0, 1), (0, 1), (0, 1),
             (1, 0), (1, 0), (1, 0), (1, 0), (1, 0), (1, 0), (1, 0), (1, 0)] := by rfl
  refine ⟨h, fun H => ?_⟩
  have := H _ 2 1 _ (by decide) h
  revert this
  decide

/-- C4, amended: for every `target_nb_edges = t > 0` for which generation
finishes, the returned list has exactly `degree * row_count` edges with
`degree = 8` and `row_count = min(8, t)`, that is `8 * min(8, t)` edges;
this holds whatever the platform does with a shift by 64 or more (`wide`),
so also of the runs in which `pow` reaches 64 and the generator goes on. -/
theorem random_target_edge_count (wide : Nat → Option Nat) (hash : Nat → Nat) (t : Int)
    (fuel : Nat) (es : edgelist)
    (ht : 0 < t) (hok : gen_random_edgelist_target_on wide hash t fuel = .ok es) :
    es.length = 8 * (min 8 t).toNat := by
  obtain ⟨m, hm⟩ : ∃ m : Nat, min 8 t = (m : Int) := ⟨(min 8 t).toNat, by omega⟩
  have hm8 : m ≤ 8 := by omega
  simp only [gen_random_edgelist_target_on] at hok
  rw [hm] at hok
  have e8 : to_ulong (8 : Int) = 8 := to_ulong_of_nat 8 (by norm_num)
  have em : to_ulong (m : Int) = m := to_ulong_of_nat m (by omega)
  rw [e8, em] at hok
  obtain ⟨h1, _⟩ := gen_random_edgelist_on_spec _ _ _ _ _ _ _ hok
  rw [h1, hm, Int.toNat_ofNat]
  omega

/-- Instance of `random_target_edge_count` at target 3 with the mixing hash
`lcg` and the masked shift: the run, in which `pow` passes 64 for three of
the edges, returns `8 * 3 = 24` edges. -/
theorem random_target_edge_count_witness :
    gen_random_edgelist_target_on shift_masked lcg 3 12
      = .ok [(0, 2), (0, 1), (0, 1), (0, 2), (0, 2), (0, 2), (0, 1), (0, 1),
        (1, 2), (1, 0), (1, 0), (1, 2), (1, 2), (1, 2), (1, 0), (1, 2),
        (2, 1), (2, 0), (2, 1), (2, 1), (2, 1), (2, 1), (2, 1), (2, 0)] ∧
    ([(0, 2), (0, 1), (0, 1), (0, 2), (0, 2), (0, 2), (0, 1), (0, 1),
        (1, 2), (1, 0), (1, 0), (1, 2), (1, 2), (1, 2), (1, 0), (1, 2),
        (2, 1), (2, 0), (2, 1), (2, 1), (2, 1), (2, 1), (2, 1), (2, 0)] : edgelist).length
      = 8 * (min 8 (3 : Int)).toNat :=
  ⟨by rfl,
    random_target_edge_count shift_masked lcg 3 12
      [(0, 2), (0, 1), (0, 1), (0, 2), (0, 2), (0, 2), (0, 1), (0, 1),
        (1, 2), (1, 0), (1, 0), (1, 2), (1, 2), (1, 2), (1, 0), (1, 2),
        (2, 1), (2, 0), (2, 1), (2, 1), (2, 1), (2, 1), (2, 1), (2, 0)] (by decide) (by rfl)⟩

theorem reroll_windowed_one_row (hash : Nat → Nat) (dim fuel f h pow : Nat) :
    ∃ e, reroll_windowed hash dim 1 0 fuel f h pow = .error e := by
  induction f generalizing h pow with
  | zero => exact ⟨_, rfl⟩
  | succ f ih =>
    simp only [reroll_windowed]
    split
    · exact ⟨_, rfl⟩
    · split
      · exact ⟨_, rfl⟩
      · rw [if_pos (Nat.mod_one _)]
        exact ih _ _

/-- With a single row the windowed loop never returns a target for source 0,
on any platform. -/
theorem reroll_windowed_on_one_row (wide : Nat → Option Nat) (hash : Nat → Nat)
    (dim fuel f h pow : Nat) :
    ∃ e, reroll_windowed_on wide hash dim 1 0 fuel f h pow = .error e := by
  induction f generalizing h pow with
  | zero => exact ⟨_, rfl⟩
  | succ f ih =>
    simp only [reroll_windowed_on]
    split
    · exact ⟨_, rfl⟩
    · split
      · exact ⟨_, rfl⟩
      · split
        · exact ⟨_, rfl⟩
        · rw [if_pos (Nat.mod_one _)]
          exact ih _ _

/-- C5, the code at `target_nb_edges = 1`: whatever the hash function and
however large the iteration budget, the generator does not return; `nb_rows`
is 1, so every candidate target is `0`, the source of edge 0, and the
re-roll loop never exits (it runs on, or reaches a shift by 64 or more). -/
theorem random_target_one_never_returns (hash : Nat → Nat) (fuel : Nat) :
    ∃ e, gen_random_edgelist_target hash 1 fuel = .error e := by
  obtain ⟨e, he⟩ := reroll_windowed_one_row hash 10 fuel fuel 0 12
  refine ⟨e, ?_⟩
  have e8 : to_ulong (8 : Int) = 8 := by decide
  have e10 : to_ulong (10 : Int) = 10 := by decide
  have e1 : to_ulong (min 8 1 : Int) = 1 := by decide
  simp only [gen_random_edgelist_target, gen_random_edgelist, e8, e10, e1]
  norm_num [fill_edges, pick_target, he]

/-- At `target_nb_edges = 1` the generator does not return on any platform:
also where a shift by 64 or more goes on, every candidate target is the
source. -/
theorem gen_random_edgelist_target_on_one (wide : Nat → Option Nat) (hash : Nat → Nat)
    (fuel : Nat) :
    ∃ e, gen_random_edgelist_target_on wide hash 1 fuel = .error e := by
  obtain ⟨e, he⟩ := reroll_windowed_on_one_row wide hash 10 fuel fuel 0 12
  refine ⟨e, ?_⟩
  have e8 : to_ulong (8 : Int) = 8 := by decide
  have e10 : to_ulong (10 : Int) = 10 := by decide
  have e1 : to_ulong (min 8 1 : Int) = 1 := by decide
  simp only [gen_random_edgelist_target_on, gen_random_edgelist_on, e8, e10, e1]
  norm_num [fill_edges_on, pick_target_on, he]

/-! ### Equality oracle: reflexivity and symmetry -/

/-- C13: for every array `a`, `same_array a a` is true. -/
theorem same_array_refl (a : List value_type) : same_array a a = true :=
  (same_array_iff a a).1.mpr ⟨rfl, fun _ _ => rfl⟩

/-- C14: for all arrays `a` and `b`, `same_array a b` and `same_array b a`
are the same boolean. -/
theorem same_array_symm (a b : List value_type) : same_array a b = same_array b a := by
  rw [Bool.eq_iff_iff, (same_array_iff a b).1, (same_array_iff b a).1]
  constructor
  · rintro ⟨h1, h2⟩
    exact ⟨h1.symm, fun i hi => (h2 i (by omega)).symm⟩
  · rintro ⟨h1, h2⟩
    exact ⟨h1.symm, fun i hi => (h2 i (by omega)).symm⟩

/-! ### Random generator: ranges and sources -/

theorem reroll_uniform_lt (hash : Nat → Nat) (nb_rows i f h j : Nat) (hr : 0 < nb_rows)
    (hok : reroll_uniform hash nb_rows i f h = .ok j) : j < nb_rows := by
  induction f generalizing h with
  | zero => simp [reroll_uniform] at hok
  | succ f ih =>
    simp only [reroll_uniform] at hok
    split at hok
    · exact ih _ hok
    · simp only [Except.ok.injEq] at hok
      rw [← hok]; exact Nat.mod_lt _ hr

theorem pick_target_on_lt (wide : Nat → Option Nat) (hash : Nat → Nat)
    (dim degree nb_rows fuel k j : Nat) (hr : 0 < nb_rows)
    (hok : pick_target_on wide hash dim degree nb_rows fuel k = .ok j) : j < nb_rows := by
  simp only [pick_target_on] at hok
  split at hok
  · exact reroll_uniform_lt _ _ _ _ _ _ hr hok
  · exact reroll_windowed_on_lt _ _ _ _ _ _ _ _ _ _ hr hok

/-- C11: for every `dim`, `degree ≥ 1`, `nb_rows ≥ 1` and every hash function,
whenever `gen_random_edgelist` returns a list, the source and the target of
every edge are below `nb_rows`; this holds whatever the platform does with a
shift by 64 or more (`wide`), so also of the runs in which `pow` reaches 64
and the generator goes on. -/
theorem random_ids_in_range (wide : Nat → Option Nat) (hash : Nat → Nat)
    (dim degree nb_rows fuel : Nat) (es : edgelist)
    (_hd : 1 ≤ degree) (_hr : 1 ≤ nb_rows)
    (hok : gen_random_edgelist_on wide hash dim degree nb_rows fuel = .ok es) :
    ∀ e ∈ es, e.1 < nb_rows ∧ e.2 < nb_rows := by
  obtain ⟨hlen, hslot⟩ := gen_random_edgelist_on_spec wide hash dim degree nb_rows fuel es hok
  intro e he
  obtain ⟨idx, hidx, hget⟩ := List.mem_iff_getElem.mp he
  obtain ⟨j, hj, hs⟩ := hslot idx hidx
  rw [List.getElem?_eq_getElem hidx, hget] at hs
  simp only [Option.some.injEq] at hs
  subst hs
  have hN : idx < degree % 2 ^ 64 * (nb_rows % 2 ^ 64) :=
    lt_of_lt_of_le (hlen ▸ hidx) (Nat.mod_le _ _)
  have hrpos : 0 < nb_rows % 2 ^ 64 := by
    rcases Nat.eq_zero_or_pos (nb_rows % 2 ^ 64) with h0 | h0
    · rw [h0] at hN; simp at hN
    · exact h0
  have hle : nb_rows % 2 ^ 64 ≤ nb_rows := Nat.mod_le _ _
  constructor
  · have : idx / (degree % 2 ^ 64) < nb_rows % 2 ^ 64 := Nat.div_lt_of_lt_mul hN
    exact lt_of_lt_of_le this hle
  · exact lt_of_lt_of_le (pick_target_on_lt _ _ _ _ _ _ _ _ hrpos hj) hle

/-- Instance of `random_ids_in_range` in the windowed mode, on the program's
own parameters (`dim = 10`, `degree = 8`) with 3 rows, the mixing hash `lcg`
and the masked shift, at the edge `(2, 1)` of index 19, for which `pow`
reaches 72 before the target is computed. -/
theorem random_ids_in_range_witness :
    gen_random_edgelist_on shift_masked lcg 10 8 3 12
      = .ok [(0, 2), (0, 1), (0, 1), (0, 2), (0, 2), (0, 2), (0, 1), (0, 1),
        (1, 2), (1, 0), (1, 0), (1, 2), (1, 2), (1, 2), (1, 0), (1, 2),
        (2, 1), (2, 0), (2, 1), (2, 1), (2, 1), (2, 1), (2, 1), (2, 0)] ∧
    pick_target_on shift_undefined lcg 10 8 3 12 19 = .error (.shift 72) ∧
    ((2, 1) : edge).1 < 3 ∧ ((2, 1) : edge).2 < 3 :=
  ⟨by rfl, by rfl,
    random_ids_in_range shift_masked lcg 10 8 3 12
      [(0, 2), (0, 1), (0, 1), (0, 2), (0, 2), (0, 2), (0, 1), (0, 1),
        (1, 2), (1, 0), (1, 0), (1, 2), (1, 2), (1, 2), (1, 0), (1, 2),
        (2, 1), (2, 0), (2, 1), (2, 1), (2, 1), (2, 1), (2, 1), (2, 0)]
      (by decide) (by decide) (by rfl) (2, 1) (by decide)⟩

theorem count_quotients (d N v : Nat) (hd : 0 < d) :
    ((List.range (d * N)).map (fun i => i / d)).count v = if v < N then d else 0 := by
  induction N with
  | zero => simp
  | succ N ih =>
    have e : d * (N + 1) = d * N + d := by ring
    have hblock : ((List.range d).map (fun t => d * N + t)).map (fun i => i / d)
        = List.replicate d N := by
      rw [List.map_map]
      apply List.ext_getElem
      · simp
      · intro i h1 h2
        simp only [List.length_map, List.length_range] at h1
        simp only [List.getElem_map, List.getElem_range, Function.comp_apply,
          List.getElem_replicate]
        rw [Nat.add_comm, Nat.add_mul_div_left _ _ hd, Nat.div_eq_of_lt h1, Nat.zero_add]
    rw [e, List.range_add, List.map_append, List.count_append, ih, hblock, List.count_replicate]
    by_cases h1 : v < N
    · have h2 : ¬ (N = v) := by omega
      have h3 : v < N + 1 := by omega
      simp [h1, h2, h3]
    · by_cases h2 : N = v
      · subst h2; simp
      · have h3 : ¬ (v < N + 1) := by omega
        simp [h1, h2, h3]

theorem sources_eq_quotients (d L : Nat) (es : edgelist) (hlen : es.length = L)
    (h : ∀ idx, idx < L → ∃ e, es[idx]? = some e ∧ e.1 = idx / d) :
    es.map Prod.fst = (List.range L).map (fun i => i / d) := by
  apply List.ext_getElem
  · simp [hlen]
  · intro i h1 h2
    simp only [List.length_map] at h1
    obtain ⟨e, he, hs⟩ := h i (by omega)
    rw [List.getElem?_eq_getElem h1] at he
    simp only [Option.some.injEq] at he
    simp [he, hs]

/-- C17 as stated fails when the product `degree * nb_rows` wraps around in
`unsigned long`: for `degree = nb_rows = 2^32` the product is `0` modulo
`2^64`, the generator returns the empty list, and there is no edge at
index 0. -/
theorem random_wrapped_product_is_empty :
    gen_random_edgelist (fun h => h + 1) 10 (2 ^ 32) (2 ^ 32) 0 = .ok [] ∧
    ¬ (∀ (hash : Nat → Nat) (dim degree nb_rows fuel : Nat) (es : edgelist),
        1 ≤ degree → gen_random_edgelist hash dim degree nb_rows fuel = .ok es →
        ∀ k, k < degree * nb_rows → ∃ j, es[k]? = some (k / degree, j)) := by
  have h : gen_random_edgelist (fun h => h + 1) 10 (2 ^ 32) (2 ^ 32) 0 = .ok [] := by rfl
  refine ⟨h, fun H => ?_⟩
  obtain ⟨j, hj⟩ := H _ 10 (2 ^ 32) (2 ^ 32) 0 [] (by norm_num) h 0 (by norm_num)
  simp at hj

/-- C17, amended: for every `dim`, `degree ≥ 1`, `nb_rows` whose product
`degree * nb_rows` does not wrap around in `unsigned long` (it is below
`2^64`) and every hash function, whenever `gen_random_edgelist` returns a
list, it has `degree * nb_rows` edges, the edge at index `k` has source
`k / degree`, and every vertex `v < nb_rows` is the source of exactly
`degree` edges; this holds whatever the platform does with a shift by 64 or
more (`wide`), so also of the runs in which `pow` reaches 64 and the
generator goes on. -/
theorem random_sources (wide : Nat → Option Nat) (hash : Nat → Nat)
    (dim degree nb_rows fuel : Nat) (es : edgelist)
    (hd : 1 ≤ degree) (hprod : degree * nb_rows < 2 ^ 64)
    (hok : gen_random_edgelist_on wide hash dim degree nb_rows fuel = .ok es) :
    es.length = degree * nb_rows ∧
    (∀ k, k < degree * nb_rows → ∃ j, es[k]? = some (k / degree, j)) ∧
    (∀ v, v < nb_rows → es.countP (fun e => e.1 == v) = degree) := by
  obtain ⟨hlen, hslot⟩ := gen_random_edgelist_on_spec wide hash dim degree nb_rows fuel es hok
  rcases Nat.eq_zero_or_pos nb_rows with h0 | hpos
  · subst h0
    simp only [Nat.zero_mod, Nat.mul_zero] at hlen
    refine ⟨by simpa using hlen, fun k hk => by simp at hk, fun v hv => by simp at hv⟩
  · have hdlt : degree < 2 ^ 64 :=
      lt_of_le_of_lt (Nat.le_mul_of_pos_right degree hpos) hprod
    have hrlt : nb_rows < 2 ^ 64 :=
      lt_of_le_of_lt (Nat.le_mul_of_pos_left nb_rows hd) hprod
    rw [Nat.mod_eq_of_lt hdlt, Nat.mod_eq_of_lt hrlt, Nat.mod_eq_of_lt hprod] at hlen
    rw [Nat.mod_eq_of_lt hdlt] at hslot
    have hsrc : ∀ idx, idx < degree * nb_rows → ∃ e, es[idx]? = some e ∧ e.1 = idx / degree := by
      intro idx hidx
      obtain ⟨j, _, hs⟩ := hslot idx (by omega)
      exact ⟨_, hs, rfl⟩
    refine ⟨hlen, ?_, ?_⟩
    · intro k hk
      obtain ⟨j, _, hs⟩ := hslot k (by omega)
      exact ⟨j, hs⟩
    · intro v hv
      have hmap := sources_eq_quotients degree (degree * nb_rows) es hlen hsrc
      have hc := count_quotients degree nb_rows v hd
      rw [← hmap, List.count, List.countP_map, if_pos hv] at hc
      rw [← hc]
      rfl

/-- Instance of `random_sources` in the windowed mode, on the program's own
parameters (`dim = 10`, `degree = 8`) with 3 rows, the mixing hash `lcg` and
the masked shift; `pow` passes 64 for the edges of index 3, 6 and 19. -/
theorem random_sources_witness :
    gen_random_edgelist_on shift_masked lcg 10 8 3 12
      = .ok [(0, 2), (0, 1), (0, 1), (0, 2), (0, 2), (0, 2), (0, 1), (0, 1),
        (1, 2), (1, 0), (1, 0), (1, 2), (1, 2), (1, 2), (1, 0), (1, 2),
        (2, 1), (2, 0), (2, 1), (2, 1), (2, 1), (2, 1), (2, 1), (2, 0)] ∧
    ([(0, 2), (0, 1), (0, 1), (0, 2), (0, 2), (0, 2), (0, 1), (0, 1),
        (1, 2), (1, 0), (1, 0), (1, 2), (1, 2), (1, 2), (1, 0), (1, 2),
        (2, 1), (2, 0), (2, 1), (2, 1), (2, 1), (2, 1), (2, 1), (2, 0)] : edgelist).length = 8 * 3 ∧
    (∀ k, k < 8 * 3 → ∃ j,
      ([(0, 2), (0, 1), (0, 1), (0, 2), (0, 2), (0, 2), (0, 1), (0, 1),
        (1, 2), (1, 0), (1, 0), (1, 2), (1, 2), (1, 2), (1, 0), (1, 2),
        (2, 1), (2, 0), (2, 1), (2, 1), (2, 1), (2, 1), (2, 1), (2, 0)] : edgelist)[k]? = some (k / 8, j)) ∧
    (∀ v, v < 3 →
      ([(0, 2), (0, 1), (0, 1), (0, 2), (0, 2), (0, 2), (0, 1), (0, 1),
        (1, 2), (1, 0), (1, 0), (1, 2), (1, 2), (1, 2), (1, 0), (1, 2),
        (2, 1), (2, 0), (2, 1), (2, 1), (2, 1), (2, 1), (2, 1), (2, 0)] : edgelist).countP (fun e => e.1 == v) = 8) :=
  ⟨by rfl,
    random_sources shift_masked lcg 10 8 3 12
      [(0, 2), (0, 1), (0, 1), (0, 2), (0, 2), (0, 2), (0, 1), (0, 1),
        (1, 2), (1, 0), (1, 0), (1, 2), (1, 2), (1, 2), (1, 0), (1, 2),
        (2, 1), (2, 0), (2, 1), (2, 1), (2, 1), (2, 1), (2, 1), (2, 0)]
      (by decide) (by norm_num) (by rfl)⟩

/-! ### Lattice generator: the three edges of a cell -/

/-- The three slots of every cell in closed form: the `+1` neighbour in each
axis, with wrap-around. -/
theorem cube_grid_cells (n : Nat) (u : Int) :
    ∃ es, gen_cube_grid_edgelist n u = some es ∧ es.length = 3 * (n * n * n) ∧
      ∀ x y z, x < n → y < n → z < n →
        es[3 * (x * n * n + y * n + z)]?
          = some (x * n * n + y * n + z, (x + 1) % n * n * n + y * n + z) ∧
        es[3 * (x * n * n + y * n + z) + 1]?
          = some (x * n * n + y * n + z, x * n * n + (y + 1) % n * n + z) ∧
        es[3 * (x * n * n + y * n + z) + 2]?
          = some (x * n * n + y * n + z, x * n * n + y * n + (z + 1) % n) := by
  obtain ⟨es, hes, hlen, hw⟩ := cube_grid_written n u
  refine ⟨es, hes, hlen, ?_⟩
  intro x y z hx hy hz
  obtain ⟨w0, w1, w2⟩ := hw x y z hx hy hz
  rw [loc3d_of_lt n x y z hx hy hz] at w0 w1 w2
  simp only [loc3d_eq, Nat.mod_eq_of_lt hx, Nat.mod_eq_of_lt hy, Nat.mod_eq_of_lt hz]
    at w0 w1 w2
  exact ⟨w0, w1, w2⟩

/-- C15: for every side length `n ≥ 1` and every cell `(x, y, z)` with
coordinates below `n`, writing `l = x*n^2 + y*n + z`, the edges at indices
`3l`, `3l+1`, `3l+2` of the lattice go from `l` to the `+1` neighbour along
the first, second and third axis, with wrap-around, and every target is
below `n^3`. -/
theorem cube_grid_neighbours (n : Nat) (u : Int) (x y z : Nat) (_hn : 1 ≤ n)
    (hx : x < n) (hy : y < n) (hz : z < n) :
    ∃ es, gen_cube_grid_edgelist n u = some es ∧
      es[3 * (x * n ^ 2 + y * n + z)]?
        = some (x * n ^ 2 + y * n + z, (x + 1) % n * n ^ 2 + y * n + z) ∧
      es[3 * (x * n ^ 2 + y * n + z) + 1]?
        = some (x * n ^ 2 + y * n + z, x * n ^ 2 + (y + 1) % n * n + z) ∧
      es[3 * (x * n ^ 2 + y * n + z) + 2]?
        = some (x * n ^ 2 + y * n + z, x * n ^ 2 + y * n + (z + 1) % n) ∧
      (x + 1) % n * n ^ 2 + y * n + z < n ^ 3 ∧
      x * n ^ 2 + (y + 1) % n * n + z < n ^ 3 ∧
      x * n ^ 2 + y * n + (z + 1) % n < n ^ 3 := by
  obtain ⟨es, hes, _, hcell⟩ := cube_grid_cells n u
  obtain ⟨c0, c1, c2⟩ := hcell x y z hx hy hz
  have hpos : 0 < n := by omega
  have e2 : ∀ a : Nat, a * n ^ 2 = a * n * n := fun a => by ring
  have e3 : n ^ 3 = n * n * n := by ring
  simp only [e2, e3]
  exact ⟨es, hes, c0, c1, c2,
    lin_lt n _ y z (Nat.mod_lt _ hpos) hy hz,
    lin_lt n x _ z hx (Nat.mod_lt _ hpos) hz,
    lin_lt n x y _ hx hy (Nat.mod_lt _ hpos)⟩

/-- Instance of `cube_grid_neighbours` at side length 2 and cell `(1, 0, 1)`,
whose location is 5. -/
theorem cube_grid_neighbours_witness :
    ∃ es, gen_cube_grid_edgelist (2 : Nat) 0 = some es ∧
      es[3 * (1 * 2 ^ 2 + 0 * 2 + 1)]?
        = some (1 * 2 ^ 2 + 0 * 2 + 1, (1 + 1) % 2 * 2 ^ 2 + 0 * 2 + 1) ∧
      es[3 * (1 * 2 ^ 2 + 0 * 2 + 1) + 1]?
        = some (1 * 2 ^ 2 + 0 * 2 + 1, 1 * 2 ^ 2 + (0 + 1) % 2 * 2 + 1) ∧
      es[3 * (1 * 2 ^ 2 + 0 * 2 + 1) + 2]?
        = some (1 * 2 ^ 2 + 0 * 2 + 1, 1 * 2 ^ 2 + 0 * 2 + (1 + 1) % 2) ∧
      (1 + 1) % 2 * 2 ^ 2 + 0 * 2 + 1 < 2 ^ 3 ∧
      1 * 2 ^ 2 + (0 + 1) % 2 * 2 + 1 < 2 ^ 3 ∧
      1 * 2 ^ 2 + 0 * 2 + (1 + 1) % 2 < 2 ^ 3 :=
  cube_grid_neighbours 2 0 1 0 1 (by decide) (by decide) (by decide) (by decide)

/-- For side length at least 2 the three neighbours of a cell are pairwise
distinct. -/
theorem neighbours_distinct (n x y z : Nat) (hn : 2 ≤ n) (hx : x < n) (hy : y < n)
    (hz : z < n) :
    (x + 1) % n * n * n + y * n + z ≠ x * n * n + (y + 1) % n * n + z ∧
    (x + 1) % n * n * n + y * n + z ≠ x * n * n + y * n + (z + 1) % n ∧
    x * n * n + (y + 1) % n * n + z ≠ x * n * n + y * n + (z + 1) % n := by
  have hpos : 0 < n := by omega
  have mx := Nat.mod_lt (x + 1) hpos
  have my := Nat.mod_lt (y + 1) hpos
  have mz := Nat.mod_lt (z + 1) hpos
  refine ⟨fun h => ?_, fun h => ?_, fun h => ?_⟩
  · exact succ_mod_ne n x hn hx (lin3_inj n _ y z x _ z hy hz my hz h).1
  · exact succ_mod_ne n x hn hx (lin3_inj n _ y z x y _ hy hz hy mz h).1
  · exact succ_mod_ne n y hn hy (lin3_inj n x _ z x y _ my hz hy mz h).2.1

/-- C19: for every side length `n ≥ 2`, no edge of the lattice has its source
equal to its target, and two edges at different positions of the list that
leave the same vertex have different targets (so the three edges leaving a
vertex have three pairwise distinct targets). -/
theorem cube_grid_simple (n : Nat) (u : Int) (hn : 2 ≤ n) :
    ∃ es, gen_cube_grid_edgelist n u = some es ∧
      (∀ e ∈ es, e.1 ≠ e.2) ∧
      (∀ (i j : Nat) (e1 e2 : edge), i ≠ j → es[i]? = some e1 → es[j]? = some e2 →
        e1.1 = e2.1 → e1.2 ≠ e2.2) := by
  obtain ⟨es, hes, hlen, hcell⟩ := cube_grid_cells n u
  obtain ⟨es', hes', _, hslot⟩ := cube_grid_slot n u
  have hsame : es' = es := by
    rw [hes] at hes'
    exact (Option.some.inj hes').symm
  subst hsame
  refine ⟨es', hes, ?_, ?_⟩
  · intro e he
    obtain ⟨idx, hidx, hget⟩ := List.mem_iff_getElem.mp he
    obtain ⟨e', he', _, hne⟩ := hslot idx (by omega)
    rw [List.getElem?_eq_getElem hidx, hget] at he'
    simp only [Option.some.injEq] at he'
    subst he'
    exact hne hn
  · have key : ∀ (i : Nat) (e : edge), es'[i]? = some e →
        ∃ x y z, x < n ∧ y < n ∧ z < n ∧ i / 3 = x * n * n + y * n + z ∧
          e.1 = x * n * n + y * n + z ∧
          ((i % 3 = 0 ∧ e.2 = (x + 1) % n * n * n + y * n + z) ∨
           (i % 3 = 1 ∧ e.2 = x * n * n + (y + 1) % n * n + z) ∨
           (i % 3 = 2 ∧ e.2 = x * n * n + y * n + (z + 1) % n)) := by
      intro i e hi
      have hlt : i < es'.length := by
        rcases List.getElem?_eq_some.mp hi with ⟨h, _⟩
        exact h
      rw [hlen] at hlt
      obtain ⟨x, y, z, hx, hy, hz, hl⟩ := lin_surj n (i / 3) (by omega)
      obtain ⟨c0, c1, c2⟩ := hcell x y z hx hy hz
      refine ⟨x, y, z, hx, hy, hz, hl, ?_⟩
      have hc : i = 3 * (x * n * n + y * n + z) ∨ i = 3 * (x * n * n + y * n + z) + 1 ∨
          i = 3 * (x * n * n + y * n + z) + 2 := by omega
      rcases hc with hc | hc | hc
      · rw [hc, c0] at hi
        simp only [Option.some.injEq] at hi
        subst hi
        exact ⟨rfl, Or.inl ⟨by omega, rfl⟩⟩
      · rw [hc, c1] at hi
        simp only [Option.some.injEq] at hi
        subst hi
        exact ⟨rfl, Or.inr (Or.inl ⟨by omega, rfl⟩)⟩
      · rw [hc, c2] at hi
        simp only [Option.some.injEq] at hi
        subst hi
        exact ⟨rfl, Or.inr (Or.inr ⟨by omega, rfl⟩)⟩
    intro i j e1 e2 hij h1 h2 hsrc
    obtain ⟨x, y, z, hx, hy, hz, hl, hs, ht⟩ := key i e1 h1
    obtain ⟨x', y', z', hx', hy', hz', hl', hs', ht'⟩ := key j e2 h2
    have hll : x * n * n + y * n + z = x' * n * n + y' * n + z' := by rw [← hs, ← hs', hsrc]
    obtain ⟨rfl, rfl, rfl⟩ := lin3_inj n x y z x' y' z' hy hz hy' hz' hll
    obtain ⟨d01, d02, d12⟩ := neighbours_distinct n x y z hn hx hy hz
    have hdiv : i / 3 = j / 3 := by rw [hl, hl']
    rcases ht with ⟨m, t⟩ | ⟨m, t⟩ | ⟨m, t⟩ <;>
      rcases ht' with ⟨m', t'⟩ | ⟨m', t'⟩ | ⟨m', t'⟩ <;>
      first
        | (exfalso; omega)
        | (rw [t, t']; first | exact d01 | exact d02 | exact d12
                             | exact d01.symm | exact d02.symm | exact d12.symm)

/-- Instance of `cube_grid_simple` at side length 2. -/
theorem cube_grid_simple_witness :
    ∃ es, gen_cube_grid_edgelist (2 : Nat) 0 = some es ∧
      (∀ e ∈ es, e.1 ≠ e.2) ∧
      (∀ (i j : Nat) (e1 e2 : edge), i ≠ j → es[i]? = some e1 → es[j]? = some e2 →
        e1.1 = e2.1 → e1.2 ≠ e2.2) :=
  cube_grid_simple 2 0 (by decide)

/-! ### Tree generator: the edges in closed form -/

theorem tree_spawn_ok (b v : Nat) (s : TreeState) (hv : v = s.edges.length / b)
    (h : TreeEdgesOK b s) : TreeEdgesOK b (tree_spawn v s) := by
  obtain ⟨h1, h2⟩ := h
  constructor
  · simp only [tree_spawn_edges, List.length_append, List.length_singleton, List.range_succ,
      List.map_append, List.map_cons, List.map_nil]
    rw [← h1, hv, h2]
  · simp only [tree_spawn_edges, tree_spawn_fresh_eq, List.length_append, List.length_singleton]
    omega

theorem tree_children_ok (b v : Nat) (s : TreeState) (hv : v * b = s.edges.length)
    (h : TreeEdgesOK b s) :
    TreeEdgesOK b (tree_children b v s) ∧
    (tree_children b v s).edges.length = v * b + b ∧
    (tree_children b v s).next = s.next ++ List.range' s.fresh b ∧
    (tree_children b v s).fresh = s.fresh + b := by
  unfold tree_children
  refine for_range_invariant
    (fun t s' => TreeEdgesOK b s' ∧ s'.edges.length = v * b + t ∧
      s'.next = s.next ++ List.range' s.fresh t ∧ s'.fresh = s.fresh + t)
    b _ s ⟨h, by omega, by simp, rfl⟩ ?_
  intro t s' ht ⟨i1, i2, i3, i4⟩
  refine ⟨tree_spawn_ok b v s' ?_ i1, ?_, ?_, ?_⟩
  · rw [i2, Nat.add_comm, Nat.add_mul_div_right _ _ (by omega), Nat.div_eq_of_lt ht,
      Nat.zero_add]
  · simp only [tree_spawn_edges, List.length_append, List.length_singleton]; omega
  · simp only [tree_spawn_next, i3, i4, List.range'_concat, List.append_assoc, Nat.one_mul]
  · simp only [tree_spawn_fresh_eq]; omega

theorem tree_frontier_ok (b m p : Nat) (s : TreeState) (hp : p * b = s.edges.length)
    (h : TreeEdgesOK b s) :
    TreeEdgesOK b ((List.range' p m).foldl (fun acc v => tree_children b v acc) s) ∧
    ((List.range' p m).foldl (fun acc v => tree_children b v acc) s).edges.length
      = (p + m) * b ∧
    ((List.range' p m).foldl (fun acc v => tree_children b v acc) s).next
      = s.next ++ List.range' s.fresh (m * b) ∧
    ((List.range' p m).foldl (fun acc v => tree_children b v acc) s).fresh
      = s.fresh + m * b := by
  induction m generalizing p s with
  | zero => simpa using ⟨h, hp.symm⟩
  | succ m ih =>
    obtain ⟨c1, c2, c3, c4⟩ := tree_children_ok b p s hp h
    have hp' : (p + 1) * b = (tree_children b p s).edges.length := by rw [c2]; ring
    obtain ⟨i1, i2, i3, i4⟩ := ih (p + 1) (tree_children b p s) hp' c1
    rw [List.range'_succ, List.foldl_cons]
    refine ⟨i1, ?_, ?_, ?_⟩
    · rw [i2]; ring
    · rw [i3, c3, c4, List.append_assoc]
      congr 1
      have := List.range'_append s.fresh b (m * b) 1
      simp only [Nat.one_mul] at this
      rw [this]
      congr 1
      ring
    · rw [i4, c4]; ring

theorem tree_level_inv (b : Nat) (s : TreeState) (h : TreeLevelInv b s) :
    TreeLevelInv b (tree_level b s) := by
  obtain ⟨hok, hnext, p, len, hprev, hp, hfresh⟩ := h
  have hf := tree_frontier_ok b len p s hp hok
  rw [← hprev] at hf
  obtain ⟨i1, i2, i3, i4⟩ := hf
  refine ⟨i1, rfl, s.fresh, len * b, ?_, ?_, ?_⟩
  · show (s.prev.foldl (fun acc v => tree_children b v acc) s).next = _
    rw [i3, hnext, List.nil_append]
  · show s.fresh * b = (s.prev.foldl (fun acc v => tree_children b v acc) s).edges.length
    rw [i2, ← hfresh]
  · show s.fresh + len * b = (s.prev.foldl (fun acc v => tree_children b v acc) s).fresh
    rw [i4]

theorem tree_state_level_inv (b h : Nat) :
    TreeLevelInv b (gen_balanced_tree_state b h) := by
  simp only [gen_balanced_tree_state, Int.toNat_ofNat]
  induction h with
  | zero =>
    rw [for_range_zero]
    exact ⟨⟨by simp, rfl⟩, rfl, 0, 1, by simp [List.range'], by simp, rfl⟩
  | succ h ih => rw [for_range_succ]; exact tree_level_inv b _ ih

/-- The edge list of the tree generator in closed form. -/
theorem tree_edges_closed_form (b h : Nat) :
    gen_balanced_tree_edgelist b h
      = (List.range (gen_balanced_tree_edgelist b h).length).map (fun k => (k / b, k + 1)) :=
  (tree_state_level_inv b h).1.1

theorem tree_edge_at (b h k : Nat) (hk : k < (gen_balanced_tree_edgelist b h).length) :
    (gen_balanced_tree_edgelist b h)[k]? = some (k / b, k + 1) := by
  have hcf := tree_edges_closed_form b h
  rw [hcf, List.getElem?_map, List.getElem?_range (by simpa using hk)]
  rfl

/-- C16: for every branching factor `b ≥ 1`, height `h ≥ 0` and index `k`
below the edge count, the `k`-th edge of the tree is `(k / b, k + 1)`; the
targets are the fresh ids `1, 2, 3, ...` in emission order, and the parent of
the target `c` of an edge is `(c - 1) / b`. -/
theorem tree_edge_closed_form (b h k : Nat) (_hb : 1 ≤ b)
    (hk : k < (gen_balanced_tree_edgelist b h).length) :
    (gen_balanced_tree_edgelist b h)[k]? = some (k / b, k + 1) ∧
    (gen_balanced_tree_edgelist b h).map Prod.snd
      = List.range' 1 (gen_balanced_tree_edgelist b h).length ∧
    (∀ e ∈ gen_balanced_tree_edgelist b h, e.1 = (e.2 - 1) / b) := by
  have hcf := tree_edges_closed_form b h
  refine ⟨tree_edge_at b h k hk, ?_, ?_⟩
  · conv_lhs => rw [hcf]
    rw [List.map_map, List.range'_eq_map_range]
    apply List.map_congr_left
    intro a _
    simp only [Function.comp_apply]
    omega
  · intro e he
    rw [hcf] at he
    obtain ⟨a, _, rfl⟩ := List.mem_map.mp he
    simp

/-- Instance of `tree_edge_closed_form` at branching factor 2, height 3 and
index 9: the edge `(4, 10)`. -/
theorem tree_edge_closed_form_witness :
    (gen_balanced_tree_edgelist (2 : Nat) (3 : Nat))[9]? = some (9 / 2, 9 + 1) ∧
    (gen_balanced_tree_edgelist (2 : Nat) (3 : Nat)).map Prod.snd
      = List.range' 1 (gen_balanced_tree_edgelist (2 : Nat) (3 : Nat)).length ∧
    (∀ e ∈ gen_balanced_tree_edgelist (2 : Nat) (3 : Nat), e.1 = (e.2 - 1) / 2) :=
  tree_edge_closed_form 2 3 9 (by decide) (by decide)

/-- C12: for every branching factor `b ≥ 1` and height `h ≥ 1`, a vertex id
occurs in the tree, as the source or the target of an edge, exactly when it
is one of `0, 1, ..., E`, where `E` is the number of edges. -/
theorem tree_ids_contiguous (b h : Nat) (hb : 1 ≤ b) (hh : 1 ≤ h) (v : Nat) :
    (∃ e ∈ gen_balanced_tree_edgelist b h, e.1 = v ∨ e.2 = v) ↔
      v ≤ (gen_balanced_tree_edgelist b h).length := by
  have hcf := tree_edges_closed_form b h
  have hE : 1 ≤ (gen_balanced_tree_edgelist b h).length := by
    have hs := (tree_state_sizes b h).2.2.1
    have hle : b ^ (0 + 1) ≤ ∑ i in Finset.range h, b ^ (i + 1) :=
      Finset.single_le_sum (f := fun i => b ^ (i + 1)) (fun i _ => Nat.zero_le _)
        (Finset.mem_range.mpr hh)
    simp only [Nat.zero_add, pow_one] at hle
    unfold gen_balanced_tree_edgelist
    omega
  constructor
  · rintro ⟨e, he, hv⟩
    rw [hcf] at he
    obtain ⟨a, ha, rfl⟩ := List.mem_map.mp he
    have ha' : a < (gen_balanced_tree_edgelist b h).length := List.mem_range.mp ha
    have hdiv : a / b ≤ a := Nat.div_le_self a b
    rcases hv with hv | hv
    · simp only at hv; omega
    · simp only at hv; omega
  · intro hv
    rcases Nat.eq_zero_or_pos v with h0 | hpos
    · refine ⟨(0 / b, 0 + 1), List.getElem?_mem (tree_edge_at b h 0 (by omega)), Or.inl ?_⟩
      simp [h0]
    · refine ⟨((v - 1) / b, v - 1 + 1),
        List.getElem?_mem (tree_edge_at b h (v - 1) (by omega)), Or.inr ?_⟩
      simp only; omega

/-- Instance of `tree_ids_contiguous` at branching factor 2, height 2 and
vertex 3. -/
theorem tree_ids_contiguous_witness :
    (∃ e ∈ gen_balanced_tree_edgelist (2 : Nat) (2 : Nat), e.1 = 3 ∨ e.2 = 3) ↔
      3 ≤ (gen_balanced_tree_edgelist (2 : Nat) (2 : Nat)).length :=
  tree_ids_contiguous 2 2 (by decide) (by decide) 3

theorem sum_pow_two (m : Nat) : ∑ i in Finset.range m, 2 ^ (i + 1) + 2 = 2 ^ (m + 1) := by
  induction m with
  | zero => simp
  | succ m ih => rw [Finset.sum_range_succ]; have := pow_succ 2 (m + 1); omega

/-- C18: for every `target_nb_edges = t ≥ 2`, when `log2_up t` is the ceiling
of the binary logarithm of `t`, the one-argument tree generator returns the
tree of branching factor 2 and height `ceil(log2 t) - 1`, which has exactly
`2 ^ ceil(log2 t) - 2` edges; that count is at least `t - 2` and less than
`2 t - 2`. -/
theorem tree_target_edge_count (log2_up : Int → Int) (t : Int) (ht : 2 ≤ t)
    (hlog : log2_up t = (Nat.clog 2 t.toNat : Int)) :
    gen_balanced_tree_edgelist_target log2_up t
      = gen_balanced_tree_edgelist 2 ((Nat.clog 2 t.toNat : Int) - 1) ∧
    ((gen_balanced_tree_edgelist_target log2_up t).length : Int)
      = 2 ^ Nat.clog 2 t.toNat - 2 ∧
    t - 2 ≤ ((gen_balanced_tree_edgelist_target log2_up t).length : Int) ∧
    ((gen_balanced_tree_edgelist_target log2_up t).length : Int) < 2 * t - 2 := by
  obtain ⟨n, rfl⟩ : ∃ n : Nat, t = (n : Int) := ⟨t.toNat, by omega⟩
  have hn : 2 ≤ n := by omega
  simp only [Int.toNat_ofNat] at hlog ⊢
  have hc : 0 < Nat.clog 2 n := Nat.clog_pos (by norm_num) hn
  have hup : n ≤ 2 ^ Nat.clog 2 n := Nat.le_pow_clog (by norm_num) n
  have hlow : 2 ^ (Nat.clog 2 n).pred < n := Nat.pow_pred_clog_lt_self (by norm_num) (by omega)
  obtain ⟨c, hcc⟩ : ∃ c, Nat.clog 2 n = c + 1 := ⟨Nat.clog 2 n - 1, by omega⟩
  rw [hcc] at hup hlow ⊢
  simp only [Nat.pred_succ] at hlow
  have heq : gen_balanced_tree_edgelist_target log2_up (n : Int)
      = gen_balanced_tree_edgelist 2 (c : Int) := by
    simp only [gen_balanced_tree_edgelist_target, hlog, hcc]
    congr 1
    push_cast; ring
  have hlen : (gen_balanced_tree_edgelist 2 (c : Int)).length + 2 = 2 ^ (c + 1) := by
    have hs := (tree_state_sizes 2 c).2.2.1
    have hsum := sum_pow_two c
    unfold gen_balanced_tree_edgelist
    simp only [Nat.cast_ofNat] at hs
    omega
  have hpow : (2 : Nat) ^ (c + 1) = 2 * 2 ^ c := by rw [pow_succ]; ring
  refine ⟨?_, ?_, ?_, ?_⟩
  · rw [heq]; congr 1; push_cast; ring
  · rw [heq]
    have : (((gen_balanced_tree_edgelist 2 (c : Int)).length + 2 : Nat) : Int)
        = ((2 ^ (c + 1) : Nat) : Int) := by rw [hlen]
    push_cast at this
    linarith
  · rw [heq]
    have h1 : (n : Int) ≤ ((2 ^ (c + 1) : Nat) : Int) := by exact_mod_cast hup
    rw [← hlen] at h1
    push_cast at h1
    linarith
  · rw [heq]
    have h1 : (((gen_balanced_tree_edgelist 2 (c : Int)).length + 2 : Nat) : Int) < 2 * n := by
      rw [hlen, hpow]; exact_mod_cast (by omega : 2 * 2 ^ c < 2 * n)
    push_cast at h1
    linarith

/-- Instance of `tree_target_edge_count` at target 5, with the ceiling of the
binary logarithm for `log2_up`. -/
theorem tree_target_edge_count_witness :
    gen_balanced_tree_edgelist_target (fun z => (Nat.clog 2 z.toNat : Int)) 5
      = gen_balanced_tree_edgelist 2 ((Nat.clog 2 (5 : Int).toNat : Int) - 1) ∧
    ((gen_balanced_tree_edgelist_target (fun z => (Nat.clog 2 z.toNat : Int)) 5).length : Int)
      = 2 ^ Nat.clog 2 (5 : Int).toNat - 2 ∧
    (5 : Int) - 2
      ≤ ((gen_balanced_tree_edgelist_target (fun z => (Nat.clog 2 z.toNat : Int)) 5).length
          : Int) ∧
    ((gen_balanced_tree_edgelist_target (fun z => (Nat.clog 2 z.toNat : Int)) 5).length : Int)
      < 2 * 5 - 2 :=
  tree_target_edge_count (fun z => (Nat.clog 2 z.toNat : Int)) 5 (by decide) rfl

/-! ### Random generator: the exponent of the window -/

/-- C20, the code at `target_nb_edges = 2` with a hash whose first six values
from edge index 0 pass the widening test (`1, 2, ..., 6`) and whose later
values (`500001`) fail it: the widening loop leaves `pow = 12 + 6 * 10 = 72`,
and the generator evaluates the shift `1UL << 72`, out of range for a 64-bit
`unsigned long`. -/
theorem random_shift_out_of_range :
    widen (fun h => if h < 6 then h + 1 else 500001) 10 7 0 12 = .ok (500001, 72) ∧
    gen_random_edgelist_target (fun h => if h < 6 then h + 1 else 500001) 2 7
      = .error (.shift 72) :=
  ⟨by rfl, by rfl⟩

end Minicourse
